import Mathlib

/-!
# Verification of the expense-tracker core (`app.py`)

This file is a shallow embedding, in Lean 4, of the core logic of the
personal-finance expense tracker implemented in `src/app.py`:

* `parse_brl_to_float` — the locale-tolerant currency parser (lines 55-66);
* `normalize_date` — the two-format date normalizer (lines 68-76);
* `monthly_until_year_end` — the recurrence expansion (lines 78-94);
* the `dashboard` aggregation pass (lines 142-192);
* `get_categorias` — category resolution (lines 134-139);
* the `adicionar` add-flow (lines 213-242).

Embedding conventions:

* Python `float` values are modelled as exact rationals (`ℚ`).  All the
  amounts handled by the program are decimal fractions, which `ℚ`
  represents exactly; `float`-rounding effects are outside the model.
* Python `str` values are `String`/`List Char`.  `str.strip()` and
  `str.lower()` are modelled on the ASCII fragment, which covers every
  literal the program compares against.
* `datetime.strptime` is modelled by the deterministic equivalent of the
  CPython `_strptime` regexes: `%Y` matches exactly four digits, `%m` and
  `%d` match one or two digits with the value ranges 1-12 and 1-31, the
  whole (sliced) string must be consumed, and the resulting triple must be
  a real calendar date (`datetime` raises otherwise).
* `str(float)` (used by the spec's idempotence property) is modelled by
  `pyFloatStr`, the plain decimal shortest rendering CPython produces for
  floats in the non-exponent range (`"115.0"`, `"-0.5"`, `"1234.56"`).
* Fallible operations return `Option`; the `try/except` fallbacks of the
  source are modelled by `Option` case analysis.
-/

namespace App

/-! ## Characters and digit strings -/

/-- ASCII decimal-digit test, the fragment of `str.isdigit`/regex `\d`
relevant to the program (all inputs compared against are ASCII). -/
def isDigitC (c : Char) : Bool :=
  48 ≤ c.toNat && c.toNat ≤ 57

/-- ASCII whitespace, the fragment of Python `str.strip`'s whitespace
class relevant to the program. -/
def isSpaceC (c : Char) : Bool :=
  c.toNat = 32 || c.toNat = 9 || c.toNat = 10 || c.toNat = 13 || c.toNat = 11 || c.toNat = 12

/-- Python `str.strip()`: drop whitespace from both ends. -/
def pyStrip (l : List Char) : List Char :=
  ((l.dropWhile isSpaceC).reverse.dropWhile isSpaceC).reverse

/-- Numeric value of a list of digit characters, most significant first
(the value the CPython int/float scanners assign to a digit run). -/
def natFromDigitChars (cs : List Char) : ℕ :=
  cs.foldl (fun a c => 10 * a + (c.toNat - 48)) 0

/-- Little-endian digit list of `n` (least significant first), with
explicit fuel to keep the recursion structural. -/
def digitsRevFuel : ℕ → ℕ → List ℕ
  | 0, _ => []
  | f + 1, n => if n = 0 then [] else n % 10 :: digitsRevFuel f (n / 10)

/-- Decimal digit characters of `n`, most significant first; `"0"` for 0. -/
def natDigitChars (n : ℕ) : List Char :=
  if n = 0 then ['0'] else ((digitsRevFuel n n).reverse.map Nat.digitChar)

/-- Left-pad a digit string with `'0'` up to width `k`
(CPython's `%Y`/`%m`/`%d` zero padding). -/
def zeroPad (k : ℕ) (cs : List Char) : List Char :=
  List.replicate (k - cs.length) '0' ++ cs

/-- Little-endian value of a digit list. -/
def valLE (ds : List ℕ) : ℕ :=
  ds.foldr (fun d r => d + 10 * r) 0

theorem valLE_digitsRevFuel : ∀ (f n : ℕ), n ≤ f → valLE (digitsRevFuel f n) = n := by
  intro f
  induction f with
  | zero => intro n h; interval_cases n; simp [digitsRevFuel, valLE]
  | succ f ih =>
    intro n h
    by_cases h0 : n = 0
    · simp [digitsRevFuel, h0, valLE]
    · have hdiv : n / 10 ≤ f := by
        have : n / 10 < n := Nat.div_lt_self (Nat.pos_of_ne_zero h0) (by norm_num)
        omega
      simp only [digitsRevFuel, h0, if_false, valLE, List.foldr]
      have := ih (n / 10) hdiv
      simp only [valLE] at this
      rw [this]
      omega

theorem digitsRevFuel_lt_ten : ∀ (f n : ℕ), ∀ d ∈ digitsRevFuel f n, d < 10 := by
  intro f
  induction f with
  | zero => intro n d hd; simp [digitsRevFuel] at hd
  | succ f ih =>
    intro n d hd
    by_cases h0 : n = 0
    · simp [digitsRevFuel, h0] at hd
    · simp only [digitsRevFuel, h0, if_false, List.mem_cons] at hd
      rcases hd with h | h
      · subst h; exact Nat.mod_lt _ (by norm_num)
      · exact ih _ _ h

theorem digitsRevFuel_length_le : ∀ (f n k : ℕ), n ≤ f → n < 10 ^ k →
    (digitsRevFuel f n).length ≤ k := by
  intro f
  induction f with
  | zero => intro n k h _; interval_cases n; simp [digitsRevFuel]
  | succ f ih =>
    intro n k hf hk
    by_cases h0 : n = 0
    · simp [digitsRevFuel, h0]
    · have hk1 : k ≠ 0 := by
        intro h; subst h; simp at hk; omega
      obtain ⟨k', rfl⟩ : ∃ k', k = k' + 1 := ⟨k - 1, by omega⟩
      simp only [digitsRevFuel, h0, if_false, List.length_cons]
      have hdivf : n / 10 ≤ f := by
        have : n / 10 < n := Nat.div_lt_self (Nat.pos_of_ne_zero h0) (by norm_num)
        omega
      have hdivk : n / 10 < 10 ^ k' := by
        rw [Nat.div_lt_iff_lt_mul (by norm_num)]
        calc n < 10 ^ (k' + 1) := hk
        _ = 10 ^ k' * 10 := by ring
      exact Nat.succ_le_succ (ih _ _ hdivf hdivk)

theorem digitsRevFuel_length_ge : ∀ (f n k : ℕ), n ≤ f → 10 ^ k ≤ n →
    k + 1 ≤ (digitsRevFuel f n).length := by
  intro f
  induction f with
  | zero =>
    intro n k h hk
    have : 0 < 10 ^ k := Nat.pos_pow_of_pos k (by norm_num)
    omega
  | succ f ih =>
    intro n k hf hk
    have h0 : n ≠ 0 := by
      have : 0 < 10 ^ k := Nat.pos_pow_of_pos k (by norm_num)
      omega
    simp only [digitsRevFuel, h0, if_false, List.length_cons]
    cases k with
    | zero => omega
    | succ k' =>
      have hdivf : n / 10 ≤ f := by
        have : n / 10 < n := Nat.div_lt_self (Nat.pos_of_ne_zero h0) (by norm_num)
        omega
      have hdivk : 10 ^ k' ≤ n / 10 := by
        rw [Nat.le_div_iff_mul_le (by norm_num)]
        calc 10 ^ k' * 10 = 10 ^ (k' + 1) := by ring
        _ ≤ n := hk
      exact Nat.succ_le_succ (ih _ _ hdivf hdivk)

theorem digitChar_isDigitC {d : ℕ} (h : d < 10) : isDigitC (Nat.digitChar d) = true := by
  interval_cases d <;> decide

theorem digitChar_toNat {d : ℕ} (h : d < 10) : (Nat.digitChar d).toNat - 48 = d := by
  interval_cases d <;> decide

theorem natFromDigitChars_foldl_init (cs : List Char) : ∀ a : ℕ,
    cs.foldl (fun a c => 10 * a + (c.toNat - 48)) a =
      a * 10 ^ cs.length + natFromDigitChars cs := by
  induction cs with
  | nil => intro a; simp [natFromDigitChars]
  | cons c t ih =>
    intro a
    simp only [List.foldl_cons, List.length_cons, natFromDigitChars]
    rw [ih (10 * a + (c.toNat - 48)), ih (10 * 0 + (c.toNat - 48))]
    ring

theorem natFromDigitChars_append (l₁ l₂ : List Char) :
    natFromDigitChars (l₁ ++ l₂) =
      natFromDigitChars l₂ + natFromDigitChars l₁ * 10 ^ l₂.length := by
  simp only [natFromDigitChars, List.foldl_append]
  rw [natFromDigitChars_foldl_init l₂ _]
  simp only [natFromDigitChars]
  ring

theorem natFromDigitChars_of_digits (ds : List ℕ) (h : ∀ d ∈ ds, d < 10) :
    natFromDigitChars (ds.reverse.map Nat.digitChar) = valLE ds := by
  induction ds with
  | nil => simp [natFromDigitChars, valLE]
  | cons d t ih =>
    have hd : d < 10 := h d (List.mem_cons_self _ _)
    have ht : ∀ x ∈ t, x < 10 := fun x hx => h x (List.mem_cons_of_mem _ hx)
    simp only [List.reverse_cons, List.map_append, List.map_cons, List.map_nil]
    rw [natFromDigitChars_append]
    simp only [valLE, List.foldr]
    rw [ih ht]
    simp only [natFromDigitChars, List.foldl_cons, List.foldl_nil, List.length_cons,
      List.length_nil, digitChar_toNat hd, valLE]
    ring

theorem natFromDigitChars_natDigitChars (n : ℕ) :
    natFromDigitChars (natDigitChars n) = n := by
  by_cases h0 : n = 0
  · subst h0; decide
  · simp only [natDigitChars, h0, if_false]
    rw [natFromDigitChars_of_digits _ (digitsRevFuel_lt_ten n n)]
    exact valLE_digitsRevFuel n n le_rfl

theorem natFromDigitChars_replicate_zero (k : ℕ) (cs : List Char) :
    natFromDigitChars (List.replicate k '0' ++ cs) = natFromDigitChars cs := by
  induction k with
  | zero => simp
  | succ k ih =>
    simp only [List.replicate_succ, List.cons_append]
    simp only [natFromDigitChars, List.foldl_cons] at *
    simpa using ih

theorem natFromDigitChars_zeroPad (k : ℕ) (cs : List Char) :
    natFromDigitChars (zeroPad k cs) = natFromDigitChars cs :=
  natFromDigitChars_replicate_zero _ _

theorem natDigitChars_all_digits (n : ℕ) : ∀ c ∈ natDigitChars n, isDigitC c = true := by
  by_cases h0 : n = 0
  · subst h0; decide
  · simp only [natDigitChars, h0, if_false]
    intro c hc
    rw [List.mem_map] at hc
    obtain ⟨d, hd, rfl⟩ := hc
    rw [List.mem_reverse] at hd
    exact digitChar_isDigitC (digitsRevFuel_lt_ten n n d hd)

theorem zeroPad_all_digits (k : ℕ) (cs : List Char) (h : ∀ c ∈ cs, isDigitC c = true) :
    ∀ c ∈ zeroPad k cs, isDigitC c = true := by
  intro c hc
  rw [zeroPad, List.mem_append] at hc
  rcases hc with hc | hc
  · rw [List.eq_of_mem_replicate hc]; decide
  · exact h c hc

theorem natDigitChars_ne_nil (n : ℕ) : natDigitChars n ≠ [] := by
  by_cases h0 : n = 0
  · subst h0; decide
  · simp only [natDigitChars, h0, if_false, ne_eq, List.map_eq_nil_iff,
      List.reverse_eq_nil_iff]
    intro h
    have := digitsRevFuel_length_ge n n 0 le_rfl (by omega)
    rw [h] at this
    simp at this

theorem natDigitChars_length_le {n k : ℕ} (hk : n < 10 ^ k) (h1 : 1 ≤ k) :
    (natDigitChars n).length ≤ k := by
  by_cases h0 : n = 0
  · subst h0; simpa [natDigitChars] using h1
  · simp only [natDigitChars, h0, if_false, List.length_map, List.length_reverse]
    exact digitsRevFuel_length_le n n k le_rfl hk

theorem natDigitChars_length_eq {n k : ℕ} (hlo : 10 ^ k ≤ n) (hhi : n < 10 ^ (k + 1)) :
    (natDigitChars n).length = k + 1 := by
  have h0 : n ≠ 0 := by
    have : 0 < 10 ^ k := Nat.pos_pow_of_pos k (by norm_num)
    omega
  simp only [natDigitChars, h0, if_false, List.length_map, List.length_reverse]
  have h1 := digitsRevFuel_length_le n n (k + 1) le_rfl hhi
  have h2 := digitsRevFuel_length_ge n n k le_rfl hlo
  omega

/-! ## The value parser `parse_brl_to_float` (app.py lines 55-66) -/

/-- The character class kept by `re.sub(r"[^0-9,.\-]", "", s)`. -/
def keepChar (c : Char) : Bool :=
  isDigitC c || c == ',' || c == '.' || c == '-'

/-- The digits scanned by CPython `float(s)`: sign, integer part, fraction
part, number of fraction digits.  Kept in `ℕ` so that concrete runs are
kernel-decidable; `decOfScan` below assigns the rational value. -/
structure FloatScan where
  neg : Bool
  ip : ℕ
  fp : ℕ
  fplen : ℕ
  deriving DecidableEq

/-- The optional leading minus sign of a CPython float literal. -/
def floatScanSign (cs : List Char) : Bool × List Char :=
  match cs with
  | '-' :: rest => (true, rest)
  | _ => (false, cs)

/-- The unsigned part of a CPython float literal: either a digit run, or
a digit run, a dot and a digit run, where either side of the dot may be
empty but not both; the whole input must be consumed. -/
def floatScanBody (neg : Bool) (body : List Char) : Option FloatScan :=
  let ip := body.takeWhile isDigitC
  match body.dropWhile isDigitC with
  | [] => if ip.isEmpty then none else some ⟨neg, natFromDigitChars ip, 0, 0⟩
  | '.' :: fp =>
    if fp.all isDigitC && !(ip.isEmpty && fp.isEmpty) then
      some ⟨neg, natFromDigitChars ip, natFromDigitChars fp, fp.length⟩
    else none
  | _ => none

/-- Model of CPython `float(s)` on the alphabet that can reach it here
(digits, `'.'`, `'-'`): an optional leading minus sign, then the body.
Any other shape raises, i.e. yields `none`. -/
def floatScan (cs : List Char) : Option FloatScan :=
  floatScanBody (floatScanSign cs).1 (floatScanSign cs).2

/-- The exact rational value of a scanned float (CPython rounds this to
the nearest binary double; the model keeps it exact). -/
def decOfScan (t : FloatScan) : ℚ :=
  (if t.neg then -1 else 1) * ((t.ip : ℚ) + (t.fp : ℚ) / 10 ^ t.fplen)

/-- Model of CPython `float(s)` as used by the program: scanned digits
turned into an exact rational. -/
def floatOfChars (cs : List Char) : Option ℚ :=
  (floatScan cs).map decOfScan

/-- The argument of `parse_brl_to_float`: Python `None`, an `int`/`float`,
or a string. -/
inductive PyVal where
  | none : PyVal
  | num : ℚ → PyVal
  | str : String → PyVal

/-- Python's `c if c != ',' else '.'`, the effect of `s.replace(",", ".")`
on a single character. -/
def commaToDot (c : Char) : Char :=
  if c = ',' then '.' else c

/-- The string normalization of `parse_brl_to_float` before `float(...)`:
`re.sub(r"[^0-9,.\-]", "", str(val).strip())`, then, if a comma is
present, all dots removed and commas turned into dots, otherwise commas
turned into dots. -/
def brlNormChars (v : String) : List Char :=
  let s := (pyStrip v.data).filter keepChar
  if s.contains ',' then (s.filter (fun c => !(c == '.'))).map commaToDot
  else s.map commaToDot

/-- `parse_brl_to_float` (app.py lines 55-66): `None ↦ 0.0`; numbers pass
through; strings are normalized by `brlNormChars` and fed to `float(...)`
with a `0.0` fallback on failure. -/
def parse_brl_to_float (val : PyVal) : ℚ :=
  match val with
  | .none => 0
  | .num q => q
  | .str v =>
    match floatOfChars (brlNormChars v) with
    | some q => q
    | Option.none => 0

/-! ## A model of CPython `str(float)` -/

/-- Multiplicity of `p` in `n` (number of times `p` divides `n`), with
explicit fuel to keep the recursion structural. -/
def pMultFuel : ℕ → ℕ → ℕ → ℕ
  | 0, _, _ => 0
  | f + 1, p, n => if 2 ≤ p ∧ n ≠ 0 ∧ p ∣ n then pMultFuel f p (n / p) + 1 else 0

def pMult (p n : ℕ) : ℕ :=
  pMultFuel n p n

/-- Decimal rendering of the value `m / 10^k`: sign, integer digits, a
dot, and exactly `max k 1` fraction digits (CPython always prints at
least one, e.g. `"115.0"`). -/
def renderDecChars (m : ℤ) (k : ℕ) : List Char :=
  let a := m.natAbs
  (if m < 0 then ['-'] else []) ++ natDigitChars (a / 10 ^ k) ++
    '.' :: (if k = 0 then ['0'] else zeroPad k (natDigitChars (a % 10 ^ k)))

/-- Model of CPython `str(x)` for a float `x` carrying a decimal value
`q` (every value produced by `parse_brl_to_float` is one): the shortest
plain decimal rendering, e.g. `str(115.0) = "115.0"`,
`str(1234.56) = "1234.56"`, `str(-0.5) = "-0.5"`.  CPython switches to
exponent notation outside `1e-4 ≤ |x| < 1e16`; that regime is outside
this model.  For a `q` that is not a decimal fraction (impossible for
parser outputs) the rendering is garbage but still total. -/
def pyFloatStr (q : ℚ) : String :=
  let a := pMult 2 q.den
  let b := pMult 5 (q.den / 2 ^ a)
  let k := max a b
  let m := q.num * ((10 ^ k / q.den : ℕ) : ℤ)
  String.mk (renderDecChars m k)

/-! ## Dates: `normalize_date` (lines 68-76) and
`monthly_until_year_end` (lines 78-94) -/

/-- A calendar date as held by a Python `datetime.date`. -/
structure Date where
  y : ℕ
  m : ℕ
  d : ℕ
  deriving DecidableEq

/-- Gregorian leap-year rule, as implemented by `datetime`. -/
def isLeap (y : ℕ) : Bool :=
  y % 4 = 0 && (y % 100 ≠ 0 || y % 400 = 0)

/-- Number of days of month `m` of year `y` in the `datetime` calendar.
The source computes this as `datetime(y, m+1, 1) - timedelta(days=1)`
(first of the next month minus one day), which yields exactly this
table. -/
def daysInMonth (y m : ℕ) : ℕ :=
  if m = 2 then (if isLeap y then 29 else 28)
  else if m = 4 ∨ m = 6 ∨ m = 9 ∨ m = 11 then 30
  else 31

/-- Final step of the `%Y-%m-%d` parse: the day field (one or two
digits, value 1-31 as in the `_strptime` regex for `%d`), which must
consume the rest of the string, followed by the `datetime(...)`
validation (year ≥ 1, day within the month). -/
def parseHyphenDay (yr mo : ℕ) (r4 : List Char) : Option (ℕ × ℕ × ℕ) :=
  if ((r4.takeWhile isDigitC).length = 1 ∨ (r4.takeWhile isDigitC).length = 2) ∧
      1 ≤ natFromDigitChars (r4.takeWhile isDigitC) ∧
      natFromDigitChars (r4.takeWhile isDigitC) ≤ 31 ∧
      r4.dropWhile isDigitC = [] then
    if 1 ≤ yr ∧ natFromDigitChars (r4.takeWhile isDigitC) ≤ daysInMonth yr mo then
      some (yr, mo, natFromDigitChars (r4.takeWhile isDigitC))
    else none
  else none

/-- Middle step of the `%Y-%m-%d` parse: the month field (one or two
digits, value 1-12 as in the `_strptime` regex for `%m`) followed by the
literal `'-'`. -/
def parseHyphenMonth (yr : ℕ) (r2 : List Char) : Option (ℕ × ℕ × ℕ) :=
  if ((r2.takeWhile isDigitC).length = 1 ∨ (r2.takeWhile isDigitC).length = 2) ∧
      1 ≤ natFromDigitChars (r2.takeWhile isDigitC) ∧
      natFromDigitChars (r2.takeWhile isDigitC) ≤ 12 ∧
      (r2.dropWhile isDigitC).head? = some '-' then
    parseHyphenDay yr (natFromDigitChars (r2.takeWhile isDigitC))
      ((r2.dropWhile isDigitC).tail)
  else none

/-- Model of `datetime.strptime(t, "%Y-%m-%d")` as a deterministic parser
equivalent to the CPython `_strptime` regexes: `%Y` is exactly four
digits, `%m`/`%d` are one or two digits whose values lie in 1-12 / 1-31,
the separators must match, the whole string must be consumed, and
`datetime(...)` then validates the triple (year ≥ 1, day within the
month) — any failure raises, i.e. `none`. -/
def parseHyphen (cs : List Char) : Option (ℕ × ℕ × ℕ) :=
  if (cs.takeWhile isDigitC).length = 4 ∧ (cs.dropWhile isDigitC).head? = some '-' then
    parseHyphenMonth (natFromDigitChars (cs.takeWhile isDigitC))
      ((cs.dropWhile isDigitC).tail)
  else none

/-- Final step of the `%d/%m/%Y` parse: the four-digit year, which must
consume the rest of the string, followed by the `datetime(...)`
validation. -/
def parseSlashYear (dy mo : ℕ) (r4 : List Char) : Option (ℕ × ℕ × ℕ) :=
  if (r4.takeWhile isDigitC).length = 4 ∧ r4.dropWhile isDigitC = [] then
    if 1 ≤ natFromDigitChars (r4.takeWhile isDigitC) ∧
        dy ≤ daysInMonth (natFromDigitChars (r4.takeWhile isDigitC)) mo then
      some (dy, mo, natFromDigitChars (r4.takeWhile isDigitC))
    else none
  else none

/-- Middle step of the `%d/%m/%Y` parse: the month field followed by the
literal `'/'`. -/
def parseSlashMonth (dy : ℕ) (r2 : List Char) : Option (ℕ × ℕ × ℕ) :=
  if ((r2.takeWhile isDigitC).length = 1 ∨ (r2.takeWhile isDigitC).length = 2) ∧
      1 ≤ natFromDigitChars (r2.takeWhile isDigitC) ∧
      natFromDigitChars (r2.takeWhile isDigitC) ≤ 12 ∧
      (r2.dropWhile isDigitC).head? = some '/' then
    parseSlashYear dy (natFromDigitChars (r2.takeWhile isDigitC))
      ((r2.dropWhile isDigitC).tail)
  else none

/-- Model of `datetime.strptime(t, "%d/%m/%Y")`, symmetric to
`parseHyphen`: day and month first (one or two digits each), then a
four-digit year, full consumption, then `datetime(...)` validation.
Returns `(day, month, year)` in source order. -/
def parseSlash (cs : List Char) : Option (ℕ × ℕ × ℕ) :=
  if ((cs.takeWhile isDigitC).length = 1 ∨ (cs.takeWhile isDigitC).length = 2) ∧
      1 ≤ natFromDigitChars (cs.takeWhile isDigitC) ∧
      natFromDigitChars (cs.takeWhile isDigitC) ≤ 31 ∧
      (cs.dropWhile isDigitC).head? = some '/' then
    parseSlashMonth (natFromDigitChars (cs.takeWhile isDigitC))
      ((cs.dropWhile isDigitC).tail)
  else none

/-- Model of `date.strftime("%Y-%m-%d")`: zero-padded 4-digit year and
2-digit month and day.  (For years below 1000 glibc's `%Y` does not pad;
every date this development instantiates has a four-digit year.) -/
def strfDate (y m d : ℕ) : String :=
  String.mk (zeroPad 4 (natDigitChars y) ++ '-' :: zeroPad 2 (natDigitChars m) ++
    '-' :: zeroPad 2 (natDigitChars d))

/-- Model of `date.strftime("%Y-%m")` as used for the month keys of the
dashboard. -/
def ymStr (dt : Date) : String :=
  String.mk (zeroPad 4 (natDigitChars dt.y) ++ '-' :: zeroPad 2 (natDigitChars dt.m))

/-- `normalize_date` (app.py lines 68-76): `None`/empty input gives
`None`; otherwise the input is stripped, its first 10 characters are
tried against `%Y-%m-%d` first and `%d/%m/%Y` second, and a successful
parse is re-rendered as `YYYY-MM-DD`; both failing gives `None`. -/
def normalize_date (v : Option String) : Option String :=
  match v with
  | Option.none => none
  | some s =>
    if s = "" then none
    else
      let t := (pyStrip s.data).take 10
      match parseHyphen t with
      | some (y, m, d) => some (strfDate y m d)
      | Option.none =>
        match parseSlash t with
        | some (d, m, y) => some (strfDate y m d)
        | Option.none => none

/-- `monthly_until_year_end` (app.py lines 78-94): parse the ISO date
(empty or unparsable input gives `[]`), then for each month `mm` from the
start month through 12 produce the date `(year, mm, min(day, last day of
mm))`. -/
def monthly_until_year_end (s : String) : List Date :=
  if s = "" then []
  else
    match parseHyphen s.data with
    | Option.none => []
    | some (y, m, d) =>
      (List.range' m (13 - m)).map fun mm => ⟨y, mm, min d (daysInMonth y mm)⟩

/-! ## The dashboard aggregation (app.py lines 142-192) -/

/-- An expense row as read back from the `gastos` table: a date, a
category, an amount and an optional status (`status` is declared NOT
NULL, but the code still guards with `or "Em aberto"`, so the model
keeps it optional). The description column plays no role in any claim. -/
structure Rec where
  data : Date
  categoria : String
  valor : ℚ
  status : Option String

/-- Python `a or b` for a string-or-`None` left operand: `None` and `""`
are falsy. -/
def pyOr (o : Option String) (dflt : String) : String :=
  match o with
  | Option.none => dflt
  | some s => if s = "" then dflt else s

/-- Python `str.lower()` on the ASCII range (every status literal the
program compares against is ASCII). -/
def pyLower (s : String) : String :=
  String.mk (s.data.map Char.toLower)

/-- Truthiness of an optional string under Python `if not x`. -/
def pyFalsy (o : Option String) : Bool :=
  match o with
  | Option.none => true
  | some s => s = ""

/-- Python dict assignment `d[k] = d.get(k, 0.0) + v` on an
insertion-ordered dictionary, modelled as an association list: an
existing key keeps its position, a new key is appended. -/
def dictUpd (l : List (String × ℚ)) (key : String) (v : ℚ) : List (String × ℚ) :=
  match l with
  | [] => [(key, v)]
  | (k', v') :: t => if k' = key then (k', v' + v) :: t else (k', v') :: dictUpd t key v

/-- The accumulator of the dashboard's single pass (lines 149-158), plus
the two dictionaries. -/
structure AggSt where
  total_mes : ℚ
  total_ano : ℚ
  totais_mes : List (String × ℚ)
  totais_categoria : List (String × ℚ)
  total_mes_pago : ℚ
  total_mes_aberto : ℚ
  qtd_mes_pago : ℕ
  qtd_mes_aberto : ℕ

def initSt : AggSt := ⟨0, 0, [], [], 0, 0, 0, 0⟩

/-- The body of the dashboard's `for r in rows` loop (lines 160-176). -/
def step (now : Date) (st : AggSt) (r : Rec) : AggSt :=
  let valor := r.valor
  let ym := ymStr r.data
  let st := { st with totais_mes := dictUpd st.totais_mes ym valor,
                      totais_categoria := dictUpd st.totais_categoria r.categoria valor }
  if r.data.y = now.y then
    let st := { st with total_ano := st.total_ano + valor }
    if r.data.m = now.m then
      let st := { st with total_mes := st.total_mes + valor }
      if pyLower (pyOr r.status "Em aberto") = "pago" then
        { st with total_mes_pago := st.total_mes_pago + valor,
                  qtd_mes_pago := st.qtd_mes_pago + 1 }
      else
        { st with total_mes_aberto := st.total_mes_aberto + valor,
                  qtd_mes_aberto := st.qtd_mes_aberto + 1 }
    else st
  else st

/-- The comparison `sorted(totais_mes.items())` sorts by: default tuple
order, i.e. lexicographically by key and then by value.  `rMes a b` holds
when `a` may come before `b`. -/
def rMes (a b : String × ℚ) : Prop :=
  a.1 < b.1 ∨ (a.1 = b.1 ∧ a.2 ≤ b.2)

/-- The comparison of `sorted(..., key=lambda kv: kv[1], reverse=True)`:
descending by value; Python's sort is stable, so equal values keep their
insertion order, which is what a stable sort with this non-strict
relation produces. -/
def rCat (a b : String × ℚ) : Prop :=
  b.2 ≤ a.2

instance : DecidableRel rMes := fun _ _ =>
  inferInstanceAs (Decidable (_ ∨ _))

instance : DecidableRel rCat := fun _ _ =>
  inferInstanceAs (Decidable (_ ≤ _))

instance : IsTotal (String × ℚ) rMes where
  total a b := by
    rcases lt_trichotomy a.1 b.1 with h | h | h
    · exact Or.inl (Or.inl h)
    · rcases le_total a.2 b.2 with h2 | h2
      · exact Or.inl (Or.inr ⟨h, h2⟩)
      · exact Or.inr (Or.inr ⟨h.symm, h2⟩)
    · exact Or.inr (Or.inl h)

instance : IsTrans (String × ℚ) rMes where
  trans a b c hab hbc := by
    rcases hab with h | ⟨he, hv⟩
    · rcases hbc with h2 | ⟨he2, _⟩
      · exact Or.inl (h.trans h2)
      · exact Or.inl (he2 ▸ h)
    · rcases hbc with h2 | ⟨he2, hv2⟩
      · exact Or.inl (he ▸ h2)
      · exact Or.inr ⟨he.trans he2, hv.trans hv2⟩

instance : IsTotal (String × ℚ) rCat where
  total a b := le_total b.2 a.2

instance : IsTrans (String × ℚ) rCat where
  trans _ _ _ hab hbc := hbc.trans hab

/-- The dashboard aggregation (lines 142-192): fold the loop body over
all rows, then sort the month dictionary by key and the category
dictionary by descending total (both sorts stable, as Python's). -/
def dashboard (now : Date) (rows : List Rec) : AggSt :=
  let st := rows.foldl (step now) initSt
  { st with totais_mes := st.totais_mes.insertionSort rMes,
            totais_categoria := st.totais_categoria.insertionSort rCat }

/-- Total amount stored in an association list under key `k` (the sum of
all entries with that key; for the key-unique dictionaries produced by
the loop this is the dictionary lookup, and it is insensitive to
reordering). -/
def getTotal (l : List (String × ℚ)) (k : String) : ℚ :=
  ((l.filter fun p => p.1 == k).map fun p => p.2).sum

/-! ## The store: `get_categorias` (lines 134-139) and the add-flow
`adicionar` (lines 213-242) -/

/-- The persistent state visible to the flows under verification: the
`categorias` table (a list of names in insertion order) and the `gastos`
table. -/
structure Store where
  categorias : List String
  gastos : List Rec

/-- `get_categorias` (app.py lines 134-139): the category names ordered
ascending by the query; if there are none, the default triple. -/
def get_categorias (st : Store) : List String :=
  let nomes := st.categorias.insertionSort (· ≤ ·)
  if nomes = [] then ["Fixo", "Lazer", "Itens Casa"] else nomes

/-- The POST form of the add-flow; `request.form.get` returns `None` for
an absent field. -/
structure Form where
  data : Option String
  categoria : Option String
  descricao : Option String
  valor : Option String
  replicar_fim_ano : Option String

/-- Outcome of a POST to `/adicionar`: which flash message the user gets. -/
inductive AddOutcome where
  | missingFields
  | invalidDate
  | added (replicated : Bool)
  deriving DecidableEq

/-- The date stored by the single-insert branch:
`datetime.strptime(iso, "%Y-%m-%d").date()`.  `iso` always parses (it
was produced by `normalize_date`); the fallback is unreachable. -/
def dateOfIso (iso : String) : Date :=
  match parseHyphen iso.data with
  | some (y, m, d) => ⟨y, m, d⟩
  | Option.none => ⟨1, 1, 1⟩

/-- The POST branch of `adicionar` (app.py lines 215-242): parse the
amount (never failing), reject if date or category is missing or the
date does not normalize, otherwise insert the category if new and insert
either the replicated series or a single record, all with status
`"Em aberto"`. -/
def adicionar (f : Form) (st : Store) : Store × AddOutcome :=
  let valor := parse_brl_to_float (match f.valor with
    | Option.none => PyVal.none
    | some s => PyVal.str s)
  if pyFalsy f.data || pyFalsy f.categoria then (st, .missingFields)
  else
    match normalize_date f.data with
    | Option.none => (st, .invalidDate)
    | some iso =>
      let categoria := pyOr f.categoria ""
      let st1 := if categoria ∈ st.categorias then st
                 else { st with categorias := st.categorias ++ [categoria] }
      let replicate := f.replicar_fim_ano = some "1" ∨
        pyLower (String.mk (pyStrip categoria.data)) = "fixo"
      if replicate then
        ({ st1 with gastos := st1.gastos ++ ((monthly_until_year_end iso).map
            fun d => ⟨d, categoria, valor, some "Em aberto"⟩) }, .added true)
      else
        ({ st1 with gastos := st1.gastos ++
            [⟨dateOfIso iso, categoria, valor, some "Em aberto"⟩] }, .added false)

/-! ## Aggregation lemmas -/

/-- Amount-sum of the records satisfying `p`. -/
def sumBy (rows : List Rec) (p : Rec → Bool) : ℚ :=
  ((rows.filter p).map fun r => r.valor).sum

/-- The record lies in the current month (the nested year/month test of
the loop). -/
def curMonthB (now : Date) (r : Rec) : Bool :=
  r.data.y == now.y && r.data.m == now.m

/-- The status test of the loop:
`(r.status or "Em aberto").lower() == "pago"`. -/
def isPagoB (r : Rec) : Bool :=
  pyLower (pyOr r.status "Em aberto") == "pago"

theorem step_total_ano (now : Date) (st : AggSt) (r : Rec) :
    (step now st r).total_ano =
      st.total_ano + (if r.data.y == now.y then r.valor else 0) := by
  simp only [step]
  split_ifs with h1 h2 h3 <;> simp_all

theorem step_total_mes (now : Date) (st : AggSt) (r : Rec) :
    (step now st r).total_mes =
      st.total_mes + (if curMonthB now r then r.valor else 0) := by
  simp only [step, curMonthB]
  split_ifs with h1 h2 h3 <;> simp_all

theorem step_pago (now : Date) (st : AggSt) (r : Rec) :
    (step now st r).total_mes_pago =
      st.total_mes_pago + (if curMonthB now r && isPagoB r then r.valor else 0) := by
  simp only [step, curMonthB, isPagoB]
  split_ifs with h1 h2 h3 <;> simp_all

theorem step_aberto (now : Date) (st : AggSt) (r : Rec) :
    (step now st r).total_mes_aberto =
      st.total_mes_aberto + (if curMonthB now r && !isPagoB r then r.valor else 0) := by
  simp only [step, curMonthB, isPagoB]
  split_ifs with h1 h2 h3 <;> simp_all

theorem step_qtd_pago (now : Date) (st : AggSt) (r : Rec) :
    (step now st r).qtd_mes_pago =
      st.qtd_mes_pago + (if curMonthB now r && isPagoB r then 1 else 0) := by
  simp only [step, curMonthB, isPagoB]
  split_ifs with h1 h2 h3 <;> simp_all

theorem step_qtd_aberto (now : Date) (st : AggSt) (r : Rec) :
    (step now st r).qtd_mes_aberto =
      st.qtd_mes_aberto + (if curMonthB now r && !isPagoB r then 1 else 0) := by
  simp only [step, curMonthB, isPagoB]
  split_ifs with h1 h2 h3 <;> simp_all

theorem step_totais_mes (now : Date) (st : AggSt) (r : Rec) :
    (step now st r).totais_mes = dictUpd st.totais_mes (ymStr r.data) r.valor := by
  simp only [step]
  split_ifs <;> rfl

theorem step_totais_categoria (now : Date) (st : AggSt) (r : Rec) :
    (step now st r).totais_categoria = dictUpd st.totais_categoria r.categoria r.valor := by
  simp only [step]
  split_ifs <;> rfl

theorem foldl_total_ano (now : Date) : ∀ (rows : List Rec) (st : AggSt),
    (rows.foldl (step now) st).total_ano =
      st.total_ano + sumBy rows (fun r => r.data.y == now.y) := by
  intro rows
  induction rows with
  | nil => intro st; simp [sumBy]
  | cons r t ih =>
    intro st
    simp only [List.foldl_cons, ih, step_total_ano, sumBy, List.filter_cons]
    by_cases h : r.data.y == now.y <;> simp [h, sumBy] <;> ring

theorem foldl_total_mes (now : Date) : ∀ (rows : List Rec) (st : AggSt),
    (rows.foldl (step now) st).total_mes =
      st.total_mes + sumBy rows (curMonthB now) := by
  intro rows
  induction rows with
  | nil => intro st; simp [sumBy]
  | cons r t ih =>
    intro st
    simp only [List.foldl_cons, ih, step_total_mes, sumBy, List.filter_cons]
    by_cases h : curMonthB now r <;> simp [h, sumBy] <;> ring

theorem foldl_pago (now : Date) : ∀ (rows : List Rec) (st : AggSt),
    (rows.foldl (step now) st).total_mes_pago =
      st.total_mes_pago + sumBy rows (fun r => curMonthB now r && isPagoB r) := by
  intro rows
  induction rows with
  | nil => intro st; simp [sumBy]
  | cons r t ih =>
    intro st
    simp only [List.foldl_cons, ih, step_pago, sumBy, List.filter_cons]
    by_cases h : curMonthB now r && isPagoB r <;> simp [h, sumBy] <;> ring

theorem foldl_aberto (now : Date) : ∀ (rows : List Rec) (st : AggSt),
    (rows.foldl (step now) st).total_mes_aberto =
      st.total_mes_aberto + sumBy rows (fun r => curMonthB now r && !isPagoB r) := by
  intro rows
  induction rows with
  | nil => intro st; simp [sumBy]
  | cons r t ih =>
    intro st
    simp only [List.foldl_cons, ih, step_aberto, sumBy, List.filter_cons]
    by_cases h : curMonthB now r && !isPagoB r <;> simp [h, sumBy] <;> ring

theorem foldl_qtd_pago (now : Date) : ∀ (rows : List Rec) (st : AggSt),
    (rows.foldl (step now) st).qtd_mes_pago =
      st.qtd_mes_pago + (rows.filter fun r => curMonthB now r && isPagoB r).length := by
  intro rows
  induction rows with
  | nil => intro st; simp
  | cons r t ih =>
    intro st
    simp only [List.foldl_cons, ih, step_qtd_pago, List.filter_cons]
    by_cases h : curMonthB now r && isPagoB r <;> simp [h] <;> ring

theorem foldl_qtd_aberto (now : Date) : ∀ (rows : List Rec) (st : AggSt),
    (rows.foldl (step now) st).qtd_mes_aberto =
      st.qtd_mes_aberto + (rows.filter fun r => curMonthB now r && !isPagoB r).length := by
  intro rows
  induction rows with
  | nil => intro st; simp
  | cons r t ih =>
    intro st
    simp only [List.foldl_cons, ih, step_qtd_aberto, List.filter_cons]
    by_cases h : curMonthB now r && !isPagoB r <;> simp [h] <;> ring

theorem getTotal_nil (k : String) : getTotal [] k = 0 := rfl

theorem getTotal_cons (k' : String) (v' : ℚ) (t : List (String × ℚ)) (k : String) :
    getTotal ((k', v') :: t) k = (if k' == k then v' else 0) + getTotal t k := by
  by_cases h : k' == k <;> simp [getTotal, List.filter_cons, h]

theorem getTotal_dictUpd (l : List (String × ℚ)) (key : String) (v : ℚ) (k : String) :
    getTotal (dictUpd l key v) k = getTotal l k + (if key == k then v else 0) := by
  induction l with
  | nil =>
    by_cases h : key == k <;> simp [dictUpd, getTotal_cons, getTotal_nil, h]
  | cons p t ih =>
    obtain ⟨k', v'⟩ := p
    simp only [dictUpd]
    by_cases h1 : k' = key
    · subst h1
      rw [if_pos rfl]
      by_cases h : k' == k <;> simp [getTotal_cons, h] <;> ring
    · rw [if_neg h1]
      by_cases h : k' == k <;> simp [getTotal_cons, h, ih] <;> ring

theorem foldl_totais_mes (now : Date) : ∀ (rows : List Rec) (st : AggSt) (k : String),
    getTotal (rows.foldl (step now) st).totais_mes k =
      getTotal st.totais_mes k + sumBy rows (fun r => ymStr r.data == k) := by
  intro rows
  induction rows with
  | nil => intro st k; simp [sumBy]
  | cons r t ih =>
    intro st k
    simp only [List.foldl_cons, ih, step_totais_mes, getTotal_dictUpd, sumBy,
      List.filter_cons]
    by_cases h : ymStr r.data == k <;> simp [h, sumBy] <;> ring

theorem foldl_totais_categoria (now : Date) : ∀ (rows : List Rec) (st : AggSt) (k : String),
    getTotal (rows.foldl (step now) st).totais_categoria k =
      getTotal st.totais_categoria k + sumBy rows (fun r => r.categoria == k) := by
  intro rows
  induction rows with
  | nil => intro st k; simp [sumBy]
  | cons r t ih =>
    intro st k
    simp only [List.foldl_cons, ih, step_totais_categoria, getTotal_dictUpd, sumBy,
      List.filter_cons]
    by_cases h : r.categoria == k <;> simp [h, sumBy] <;> ring

theorem getTotal_perm {l l' : List (String × ℚ)} (h : l.Perm l') (k : String) :
    getTotal l k = getTotal l' k := by
  unfold getTotal
  exact ((h.filter _).map _).sum_eq

theorem dictUpd_keys (l : List (String × ℚ)) (key : String) (v : ℚ) :
    (dictUpd l key v).map Prod.fst =
      if key ∈ l.map Prod.fst then l.map Prod.fst else l.map Prod.fst ++ [key] := by
  induction l with
  | nil => simp [dictUpd]
  | cons p t ih =>
    obtain ⟨k', v'⟩ := p
    by_cases h1 : k' = key
    · subst h1
      simp [dictUpd]
    · simp only [dictUpd, if_neg h1, List.map_cons, ih]
      have hne : ¬ key = k' := fun h => h1 h.symm
      by_cases h2 : key ∈ t.map Prod.fst <;>
        simp [List.mem_cons, h2, hne]

theorem dictUpd_nodup_keys {l : List (String × ℚ)} (h : (l.map Prod.fst).Nodup)
    (key : String) (v : ℚ) : ((dictUpd l key v).map Prod.fst).Nodup := by
  rw [dictUpd_keys]
  by_cases h2 : key ∈ l.map Prod.fst
  · simpa [h2] using h
  · have hd : (l.map Prod.fst).Disjoint [key] := by
      intro a ha hb
      simp only [List.mem_singleton] at hb
      exact h2 (hb ▸ ha)
    rw [if_neg h2, List.nodup_append]
    exact ⟨h, List.nodup_singleton _, hd⟩

theorem foldl_nodup_mes (now : Date) : ∀ (rows : List Rec) (st : AggSt),
    (st.totais_mes.map Prod.fst).Nodup →
    ((rows.foldl (step now) st).totais_mes.map Prod.fst).Nodup := by
  intro rows
  induction rows with
  | nil => intro st h; exact h
  | cons r t ih =>
    intro st h
    rw [List.foldl_cons]
    apply ih
    rw [step_totais_mes]
    exact dictUpd_nodup_keys h _ _

theorem foldl_nodup_categoria (now : Date) : ∀ (rows : List Rec) (st : AggSt),
    (st.totais_categoria.map Prod.fst).Nodup →
    ((rows.foldl (step now) st).totais_categoria.map Prod.fst).Nodup := by
  intro rows
  induction rows with
  | nil => intro st h; exact h
  | cons r t ih =>
    intro st h
    rw [List.foldl_cons]
    apply ih
    rw [step_totais_categoria]
    exact dictUpd_nodup_keys h _ _

theorem dashboard_total_ano (now : Date) (rows : List Rec) :
    (dashboard now rows).total_ano = sumBy rows (fun r => r.data.y == now.y) := by
  have := foldl_total_ano now rows initSt
  simp only [dashboard, initSt] at this ⊢
  rw [this]
  norm_num

theorem dashboard_total_mes (now : Date) (rows : List Rec) :
    (dashboard now rows).total_mes = sumBy rows (curMonthB now) := by
  have := foldl_total_mes now rows initSt
  simp only [dashboard, initSt] at this ⊢
  rw [this]
  norm_num

theorem dashboard_pago (now : Date) (rows : List Rec) :
    (dashboard now rows).total_mes_pago =
      sumBy rows (fun r => curMonthB now r && isPagoB r) := by
  have := foldl_pago now rows initSt
  simp only [dashboard, initSt] at this ⊢
  rw [this]
  norm_num

theorem dashboard_aberto (now : Date) (rows : List Rec) :
    (dashboard now rows).total_mes_aberto =
      sumBy rows (fun r => curMonthB now r && !isPagoB r) := by
  have := foldl_aberto now rows initSt
  simp only [dashboard, initSt] at this ⊢
  rw [this]
  norm_num

theorem dashboard_qtd_pago (now : Date) (rows : List Rec) :
    (dashboard now rows).qtd_mes_pago =
      (rows.filter fun r => curMonthB now r && isPagoB r).length := by
  have := foldl_qtd_pago now rows initSt
  simp only [dashboard, initSt] at this ⊢
  rw [this]
  omega

theorem dashboard_qtd_aberto (now : Date) (rows : List Rec) :
    (dashboard now rows).qtd_mes_aberto =
      (rows.filter fun r => curMonthB now r && !isPagoB r).length := by
  have := foldl_qtd_aberto now rows initSt
  simp only [dashboard, initSt] at this ⊢
  rw [this]
  omega

theorem dashboard_getTotal_mes (now : Date) (rows : List Rec) (k : String) :
    getTotal (dashboard now rows).totais_mes k =
      sumBy rows (fun r => ymStr r.data == k) := by
  have hperm := List.perm_insertionSort rMes (rows.foldl (step now) initSt).totais_mes
  have := foldl_totais_mes now rows initSt k
  simp only [dashboard]
  rw [getTotal_perm hperm, this]
  simp [initSt, getTotal_nil]

theorem dashboard_getTotal_categoria (now : Date) (rows : List Rec) (k : String) :
    getTotal (dashboard now rows).totais_categoria k =
      sumBy rows (fun r => r.categoria == k) := by
  have hperm := List.perm_insertionSort rCat (rows.foldl (step now) initSt).totais_categoria
  have := foldl_totais_categoria now rows initSt k
  simp only [dashboard]
  rw [getTotal_perm hperm, this]
  simp [initSt, getTotal_nil]

theorem sumBy_split (rows : List Rec) (p q : Rec → Bool) :
    sumBy rows (fun r => p r && q r) + sumBy rows (fun r => p r && !q r) =
      sumBy rows p := by
  induction rows with
  | nil => simp [sumBy]
  | cons r t ih =>
    simp only [sumBy, List.filter_cons] at ih ⊢
    by_cases hp : p r
    · by_cases hq : q r <;> simp [hp, hq] <;> rw [← ih] <;> ring
    · simp [hp, ih]

theorem lengthBy_split (rows : List Rec) (p q : Rec → Bool) :
    (rows.filter fun r => p r && q r).length +
      (rows.filter fun r => p r && !q r).length = (rows.filter p).length := by
  induction rows with
  | nil => simp
  | cons r t ih =>
    simp only [List.filter_cons] at ih ⊢
    by_cases hp : p r
    · by_cases hq : q r <;> simp [hp, hq] <;> omega
    · simp [hp, ih]

/-! ## Lemmas on the value parser and the float rendering -/

theorem floatScanSign_nil : floatScanSign [] = (false, []) := rfl

theorem floatScanSign_minus (t : List Char) : floatScanSign ('-' :: t) = (true, t) := rfl

theorem floatScanSign_cons_ne {c : Char} (t : List Char) (h : ¬ c = '-') :
    floatScanSign (c :: t) = (false, c :: t) := by
  unfold floatScanSign
  split
  · next heq =>
    injection heq with h1 _
    exact absurd h1 h
  · rfl

theorem isDigitC_ne_minus {c : Char} (h : isDigitC c = true) : ¬ c = '-' := by
  intro he
  subst he
  exact absurd h (by decide)

theorem isDigitC_ne_comma {c : Char} (h : isDigitC c = true) : ¬ c = ',' := by
  intro he
  subst he
  exact absurd h (by decide)

theorem isDigitC_not_space {c : Char} (h : isDigitC c = true) : isSpaceC c = false := by
  simp only [isDigitC, Bool.and_eq_true, decide_eq_true_eq] at h
  simp only [isSpaceC, Bool.or_eq_false_iff, decide_eq_false_iff_not]
  omega

theorem isDigitC_keep {c : Char} (h : isDigitC c = true) : keepChar c = true := by
  simp [keepChar, h]

theorem dropWhile_eq_self_of_none {p : Char → Bool} {l : List Char}
    (h : ∀ c ∈ l, p c = false) : l.dropWhile p = l := by
  cases l with
  | nil => rfl
  | cons c t => exact List.dropWhile_cons_of_neg (by simp [h c (List.mem_cons_self _ _)])

theorem pyStrip_eq_self {l : List Char} (h : ∀ c ∈ l, isSpaceC c = false) :
    pyStrip l = l := by
  unfold pyStrip
  rw [dropWhile_eq_self_of_none h,
    dropWhile_eq_self_of_none (fun c hc => h c (List.mem_reverse.mp hc)),
    List.reverse_reverse]

theorem map_commaToDot_eq_self {l : List Char} (h : ∀ c ∈ l, ¬ c = ',') :
    l.map commaToDot = l := by
  induction l with
  | nil => rfl
  | cons c t ih =>
    simp only [List.map_cons, commaToDot, if_neg (h c (List.mem_cons_self _ _))]
    rw [ih fun x hx => h x (List.mem_cons_of_mem _ hx)]

theorem contains_eq_false_of_none {l : List Char} (h : ∀ c ∈ l, ¬ c = ',') :
    l.contains ',' = false := by
  induction l with
  | nil => rfl
  | cons c t ih =>
    simp only [List.contains_cons]
    rw [ih fun x hx => h x (List.mem_cons_of_mem _ hx)]
    have hne : ¬ (',' : Char) = c := fun he => (h c (List.mem_cons_self _ _)) he.symm
    simp [hne]

theorem floatScanBody_no_digit (neg : Bool) :
    ∀ (body : List Char), (∀ c ∈ body, isDigitC c = false) →
    floatScanBody neg body = none := by
  intro body h
  cases body with
  | nil => cases neg <;> rfl
  | cons c t =>
    have hc : isDigitC c = false := h c (List.mem_cons_self _ _)
    unfold floatScanBody
    rw [List.takeWhile_cons_of_neg (by simp [hc]), List.dropWhile_cons_of_neg (by simp [hc])]
    by_cases hdot : c = '.'
    · subst hdot
      cases t with
      | nil => rfl
      | cons c' t' =>
        have hc' : isDigitC c' = false := h c' (List.mem_cons_of_mem _ (List.mem_cons_self _ _))
        simp [hc']
    · split
      · next heq => exact absurd heq (List.cons_ne_nil c t)
      · next heq =>
        injection heq with h1 _
        exact absurd h1 hdot
      · rfl

theorem floatScan_no_digit {cs : List Char} (h : ∀ c ∈ cs, isDigitC c = false) :
    floatScan cs = none := by
  unfold floatScan
  apply floatScanBody_no_digit
  intro c hc
  apply h
  cases cs with
  | nil => simpa [floatScanSign_nil] using hc
  | cons c0 t =>
    by_cases h0 : c0 = '-'
    · subst h0
      rw [floatScanSign_minus] at hc
      exact List.mem_cons_of_mem _ hc
    · rw [floatScanSign_cons_ne t h0] at hc
      exact hc

theorem brlNormChars_no_digit {s : String} (h : ∀ c ∈ s.data, isDigitC c = false) :
    ∀ c ∈ brlNormChars s, isDigitC c = false := by
  intro c hc
  have hmem : ∀ {l : List Char}, (∀ x ∈ l, isDigitC x = false) →
      ∀ x ∈ l.filter keepChar, isDigitC x = false :=
    fun hl x hx => hl x (List.mem_of_mem_filter hx)
  have hstrip : ∀ x ∈ pyStrip s.data, isDigitC x = false := by
    intro x hx
    apply h
    unfold pyStrip at hx
    rw [List.mem_reverse] at hx
    have hx2 := (List.dropWhile_sublist _).subset hx
    rw [List.mem_reverse] at hx2
    exact (List.dropWhile_sublist _).subset hx2
  unfold brlNormChars at hc
  set base := (pyStrip s.data).filter keepChar with hbase
  have hbase_nd : ∀ x ∈ base, isDigitC x = false := hmem hstrip
  by_cases hcomma : base.contains ','
  · rw [if_pos hcomma] at hc
    obtain ⟨x, hx, rfl⟩ := List.mem_map.mp hc
    have hx2 : isDigitC x = false := hbase_nd x (List.mem_of_mem_filter hx)
    unfold commaToDot
    split
    · decide
    · exact hx2
  · rw [if_neg hcomma] at hc
    obtain ⟨x, hx, rfl⟩ := List.mem_map.mp hc
    have hx2 : isDigitC x = false := hbase_nd x hx
    unfold commaToDot
    split
    · decide
    · exact hx2

theorem takeWhile_append_all {p : Char → Bool} : ∀ (ds rest : List Char),
    (∀ c ∈ ds, p c = true) → (ds ++ rest).takeWhile p = ds ++ rest.takeWhile p := by
  intro ds
  induction ds with
  | nil => intro rest _; rfl
  | cons c t ih =>
    intro rest h
    have hc : p c = true := h c (List.mem_cons_self _ _)
    simp only [List.cons_append, List.takeWhile_cons_of_pos hc]
    rw [ih rest fun x hx => h x (List.mem_cons_of_mem _ hx)]

theorem dropWhile_append_all {p : Char → Bool} : ∀ (ds rest : List Char),
    (∀ c ∈ ds, p c = true) → (ds ++ rest).dropWhile p = rest.dropWhile p := by
  intro ds
  induction ds with
  | nil => intro rest _; rfl
  | cons c t ih =>
    intro rest h
    have hc : p c = true := h c (List.mem_cons_self _ _)
    simp only [List.cons_append, List.dropWhile_cons_of_pos hc]
    exact ih rest fun x hx => h x (List.mem_cons_of_mem _ hx)

theorem floatScanBody_render (neg : Bool) (ip fp : List Char)
    (hip : ∀ c ∈ ip, isDigitC c = true) (hfp : ∀ c ∈ fp, isDigitC c = true)
    (hipne : ¬ ip = []) :
    floatScanBody neg (ip ++ '.' :: fp) =
      some ⟨neg, natFromDigitChars ip, natFromDigitChars fp, fp.length⟩ := by
  unfold floatScanBody
  rw [takeWhile_append_all ip ('.' :: fp) hip, dropWhile_append_all ip ('.' :: fp) hip,
    List.takeWhile_cons_of_neg (by decide), List.dropWhile_cons_of_neg (by decide)]
  have hall : fp.all isDigitC = true := List.all_eq_true.mpr fun c hc => hfp c hc
  have hipe : (ip ++ []).isEmpty = false := by
    simp only [List.append_nil]
    cases ip with
    | nil => exact absurd rfl hipne
    | cons _ _ => rfl
  simp only [List.append_nil] at hipe ⊢
  rw [hall]
  simp [hipe]

theorem zeroPad_length_of_le {k : ℕ} {cs : List Char} (h : cs.length ≤ k) :
    (zeroPad k cs).length = k := by
  simp only [zeroPad, List.length_append, List.length_replicate]
  omega

theorem div_add_mod_div_rat (a k : ℕ) :
    ((a / 10 ^ k : ℕ) : ℚ) + ((a % 10 ^ k : ℕ) : ℚ) / 10 ^ k = (a : ℚ) / 10 ^ k := by
  have h10 : ((10 : ℚ)) ^ k ≠ 0 := by positivity
  field_simp
  have hnat : 10 ^ k * (a / 10 ^ k) + a % 10 ^ k = a := Nat.div_add_mod a (10 ^ k)
  have := congrArg (fun n : ℕ => (n : ℚ)) hnat
  push_cast at this
  linarith [this]

theorem floatOfChars_renderDec (m : ℤ) (k : ℕ) :
    floatOfChars (renderDecChars m k) = some ((m : ℚ) / 10 ^ k) := by
  have hfpd : ∀ c ∈ (if k = 0 then ['0']
      else zeroPad k (natDigitChars (m.natAbs % 10 ^ k))), isDigitC c = true := by
    by_cases hk : k = 0
    · rw [if_pos hk]; intro c hc; rw [List.mem_singleton] at hc; subst hc; decide
    · rw [if_neg hk]; exact zeroPad_all_digits _ _ (natDigitChars_all_digits _)
  have hipd := natDigitChars_all_digits (m.natAbs / 10 ^ k)
  have hipn := natDigitChars_ne_nil (m.natAbs / 10 ^ k)
  have hbody : floatScanBody (decide (m < 0))
      (natDigitChars (m.natAbs / 10 ^ k) ++ '.' :: (if k = 0 then ['0']
        else zeroPad k (natDigitChars (m.natAbs % 10 ^ k)))) =
      some ⟨decide (m < 0), natFromDigitChars (natDigitChars (m.natAbs / 10 ^ k)),
        natFromDigitChars (if k = 0 then ['0']
          else zeroPad k (natDigitChars (m.natAbs % 10 ^ k))),
        (if k = 0 then ['0']
          else zeroPad k (natDigitChars (m.natAbs % 10 ^ k))).length⟩ :=
    floatScanBody_render _ _ _ hipd hfpd hipn
  have hsign : floatScan (renderDecChars m k) =
      floatScanBody (decide (m < 0))
        (natDigitChars (m.natAbs / 10 ^ k) ++ '.' :: (if k = 0 then ['0']
          else zeroPad k (natDigitChars (m.natAbs % 10 ^ k)))) := by
    unfold floatScan renderDecChars
    by_cases hm : m < 0
    · rw [if_pos hm]
      simp only [List.cons_append, List.singleton_append, List.nil_append,
        floatScanSign_minus, decide_eq_true hm]
    · rw [if_neg hm]
      simp only [List.nil_append]
      cases hip : natDigitChars (m.natAbs / 10 ^ k) with
      | nil => exact absurd hip hipn
      | cons c t =>
        have hcd : isDigitC c = true := by
          rw [hip] at hipd
          exact hipd c (List.mem_cons_self _ _)
        rw [List.cons_append, floatScanSign_cons_ne _ (isDigitC_ne_minus hcd)]
        simp only [decide_eq_false hm, List.cons_append]
  have hfrac : (natFromDigitChars (if k = 0 then ['0']
        else zeroPad k (natDigitChars (m.natAbs % 10 ^ k))) : ℚ) /
      10 ^ ((if k = 0 then ['0']
        else zeroPad k (natDigitChars (m.natAbs % 10 ^ k))).length) =
      ((m.natAbs % 10 ^ k : ℕ) : ℚ) / 10 ^ k := by
    by_cases hk : k = 0
    · subst hk
      have h0 : natFromDigitChars ['0'] = 0 := by decide
      simp [h0, Nat.mod_one]
    · rw [if_neg hk, natFromDigitChars_zeroPad, natFromDigitChars_natDigitChars,
        zeroPad_length_of_le]
      have hk1 : 1 ≤ k := Nat.one_le_iff_ne_zero.mpr hk
      exact natDigitChars_length_le (Nat.mod_lt _ (by positivity)) hk1
  unfold floatOfChars
  rw [hsign, hbody]
  simp only [Option.map_some']
  congr 1
  unfold decOfScan
  simp only [natFromDigitChars_natDigitChars]
  rw [hfrac, div_add_mod_div_rat]
  by_cases hm : m < 0
  · have hcast : ((m.natAbs : ℕ) : ℚ) = -(m : ℚ) := by
      rw [Int.cast_natAbs, abs_of_neg hm]
      push_cast
      ring
    rw [decide_eq_true hm, hcast]
    norm_num
    ring
  · have hcast : ((m.natAbs : ℕ) : ℚ) = (m : ℚ) := by
      rw [Int.cast_natAbs, abs_of_nonneg (not_lt.mp hm)]
    rw [decide_eq_false hm, hcast]
    norm_num

theorem pMultFuel_spec : ∀ (f p n : ℕ), n ≤ f → 2 ≤ p → 1 ≤ n →
    p ^ pMultFuel f p n ∣ n ∧ ¬ p ∣ n / p ^ pMultFuel f p n := by
  intro f
  induction f with
  | zero => intro p n hf _ hn; omega
  | succ f ih =>
    intro p n hf hp hn
    by_cases hdvd : p ∣ n
    · rw [pMultFuel, if_pos ⟨hp, by omega, hdvd⟩]
      have hnp1 : 1 ≤ n / p := (Nat.one_le_div_iff (by omega)).mpr (Nat.le_of_dvd (by omega) hdvd)
      have hnpf : n / p ≤ f := by
        have : n / p < n := Nat.div_lt_self (by omega) (by omega)
        omega
      obtain ⟨h1, h2⟩ := ih p (n / p) hnpf hp hnp1
      have hn2 : p * (n / p) = n := Nat.mul_div_cancel' hdvd
      constructor
      · have hmul : p * p ^ pMultFuel f p (n / p) ∣ p * (n / p) := mul_dvd_mul_left p h1
        rw [hn2] at hmul
        rw [pow_succ']
        exact hmul
      · rw [pow_succ', ← Nat.div_div_eq_div_mul]
        exact h2
    · rw [pMultFuel, if_neg (by tauto)]
      simpa using hdvd

theorem pMult_spec {p n : ℕ} (hp : 2 ≤ p) (hn : 1 ≤ n) :
    p ^ pMult p n ∣ n ∧ ¬ p ∣ n / p ^ pMult p n :=
  pMultFuel_spec n p n le_rfl hp hn

/-- A number all of whose prime factors are 2 and 5 divides
`10 ^ max (its 2-multiplicity) (the 5-multiplicity of its odd part)`,
the exponent `pyFloatStr` computes. -/
theorem dvd_ten_pow_structure {den : ℕ} (hpos : 1 ≤ den) (hj : ∃ j, den ∣ 10 ^ j) :
    den ∣ 10 ^ max (pMult 2 den) (pMult 5 (den / 2 ^ pMult 2 den)) := by
  obtain ⟨j, hdvd10⟩ := hj
  obtain ⟨h2a, h2na⟩ := pMult_spec (p := 2) (by norm_num) hpos
  have hm1pos : 1 ≤ den / 2 ^ pMult 2 den :=
    (Nat.one_le_div_iff (Nat.pos_of_ne_zero (by positivity))).mpr (Nat.le_of_dvd (by omega) h2a)
  obtain ⟨h5b, h5nb⟩ := pMult_spec (p := 5) (n := den / 2 ^ pMult 2 den) (by norm_num) hm1pos
  set a := pMult 2 den with ha
  set m1 := den / 2 ^ a with hm1
  set b := pMult 5 m1 with hb
  set r := m1 / 5 ^ b with hr
  have hden1 : 2 ^ a * m1 = den := Nat.mul_div_cancel' h2a
  have hm2 : 5 ^ b * r = m1 := Nat.mul_div_cancel' h5b
  have hrpos : 1 ≤ r :=
    (Nat.one_le_div_iff (Nat.pos_of_ne_zero (by positivity))).mpr (Nat.le_of_dvd (by omega) h5b)
  have hr2 : ¬ 2 ∣ r := by
    intro hc
    exact h2na (hc.trans ⟨5 ^ b, by rw [← hm2]; ring⟩)
  have hr5 : ¬ 5 ∣ r := h5nb
  have hrden : r ∣ den := ⟨2 ^ a * 5 ^ b, by rw [← hden1, ← hm2]; ring⟩
  have hr10 : r ∣ 10 ^ j := hrden.trans hdvd10
  have hcop : Nat.Coprime r (10 ^ j) := by
    have c2 : Nat.Coprime 2 r := (Nat.Prime.coprime_iff_not_dvd Nat.prime_two).mpr hr2
    have c5 : Nat.Coprime 5 r := (Nat.Prime.coprime_iff_not_dvd Nat.prime_five).mpr hr5
    have c10 : Nat.Coprime 10 r := Nat.Coprime.mul c2 c5
    exact (Nat.Coprime.pow_left j c10).symm
  have hr1 : r = 1 := Nat.dvd_one.mp (hcop ▸ Nat.dvd_gcd dvd_rfl hr10)
  have hden2 : den = 2 ^ a * 5 ^ b := by
    rw [← hden1, ← hm2, hr1]
    ring
  rw [hden2, show (10 : ℕ) = 2 * 5 from rfl, mul_pow]
  exact mul_dvd_mul (pow_dvd_pow 2 (le_max_left a b)) (pow_dvd_pow 5 (le_max_right a b))

theorem parse_brl_str_eq (v : String) :
    parse_brl_to_float (.str v) =
      (match floatOfChars (brlNormChars v) with
        | some q => q
        | Option.none => 0) := rfl

theorem decOfScan_eq_divInt (t : FloatScan) :
    decOfScan t =
      Rat.divInt ((if t.neg then -1 else 1) * (t.ip * 10 ^ t.fplen + t.fp)) (10 ^ t.fplen) := by
  rw [Rat.divInt_eq_div]
  unfold decOfScan
  have h10 : ((10 : ℚ)) ^ t.fplen ≠ 0 := by positivity
  cases ht : t.neg <;>
    simp only [ht, Bool.false_eq_true, if_false, if_true] <;>
    push_cast <;>
    (try field_simp) <;>
    (try ring)

theorem decOfScan_den_dvd (t : FloatScan) : (decOfScan t).den ∣ 10 ^ t.fplen := by
  have h := Rat.den_dvd ((if t.neg then -1 else 1) * (t.ip * 10 ^ t.fplen + t.fp))
    ((10 : ℤ) ^ t.fplen)
  rw [← decOfScan_eq_divInt] at h
  have h2 : ((decOfScan t).den : ℤ) ∣ (((10 ^ t.fplen : ℕ) : ℤ)) := by
    push_cast
    exact h
  exact_mod_cast h2

theorem parse_brl_den_dvd (x : String) :
    ∃ j, (parse_brl_to_float (.str x)).den ∣ 10 ^ j := by
  unfold parse_brl_to_float
  cases hscan : floatScan (brlNormChars x) with
  | none =>
    simp only [floatOfChars, hscan, Option.map_none']
    exact ⟨0, by norm_num⟩
  | some t =>
    simp only [floatOfChars, hscan, Option.map_some']
    exact ⟨t.fplen, decOfScan_den_dvd t⟩

theorem renderDecChars_classes (m : ℤ) (k : ℕ) :
    ∀ c ∈ renderDecChars m k, isDigitC c = true ∨ c = '-' ∨ c = '.' := by
  intro c hc
  unfold renderDecChars at hc
  rw [List.mem_append, List.mem_append] at hc
  rcases hc with (hc | hc) | hc
  · right; left
    by_cases hm : m < 0
    · rw [if_pos hm, List.mem_singleton] at hc; exact hc
    · rw [if_neg hm] at hc; cases hc
  · left; exact natDigitChars_all_digits _ c hc
  · rw [List.mem_cons] at hc
    rcases hc with hc | hc
    · right; right; exact hc
    · left
      by_cases hk : k = 0
      · rw [if_pos hk, List.mem_singleton] at hc; subst hc; decide
      · rw [if_neg hk] at hc
        exact zeroPad_all_digits _ _ (natDigitChars_all_digits _) c hc

/-- Parsing the decimal rendering of a value whose denominator divides a
power of ten recovers the value exactly: this is the round trip
`parse_brl_to_float(str(float))` restricted to the values the parser can
produce. -/
theorem parse_of_pyFloatStr {q : ℚ} (h : ∃ j, q.den ∣ 10 ^ j) :
    parse_brl_to_float (.str (pyFloatStr q)) = q := by
  have hdvd : q.den ∣ 10 ^ max (pMult 2 q.den) (pMult 5 (q.den / 2 ^ pMult 2 q.den)) :=
    dvd_ten_pow_structure q.den_pos h
  set k := max (pMult 2 q.den) (pMult 5 (q.den / 2 ^ pMult 2 q.den)) with hk
  set m := q.num * ((10 ^ k / q.den : ℕ) : ℤ) with hm
  have hrender : (pyFloatStr q).data = renderDecChars m k := rfl
  have hclass := renderDecChars_classes m k
  have hnorm : brlNormChars (pyFloatStr q) = renderDecChars m k := by
    unfold brlNormChars
    rw [hrender]
    have h1 : pyStrip (renderDecChars m k) = renderDecChars m k := by
      apply pyStrip_eq_self
      intro c hc
      rcases hclass c hc with hd | hd | hd
      · exact isDigitC_not_space hd
      · subst hd; decide
      · subst hd; decide
    have h2 : (renderDecChars m k).filter keepChar = renderDecChars m k := by
      rw [List.filter_eq_self]
      intro c hc
      rcases hclass c hc with hd | hd | hd
      · exact isDigitC_keep hd
      · subst hd; decide
      · subst hd; decide
    have hnc : ∀ c ∈ renderDecChars m k, ¬ c = ',' := by
      intro c hc
      rcases hclass c hc with hd | hd | hd
      · exact isDigitC_ne_comma hd
      · subst hd; decide
      · subst hd; decide
    have h3 : (renderDecChars m k).contains ',' = false := contains_eq_false_of_none hnc
    have h4 : (renderDecChars m k).map commaToDot = renderDecChars m k :=
      map_commaToDot_eq_self hnc
    rw [h1, h2]
    simp only [h3, Bool.false_eq_true, if_false]
    exact h4
  have hvalue : ((m : ℚ)) / 10 ^ k = q := by
    have hpos : 0 < 10 ^ k / q.den :=
      Nat.lt_of_lt_of_le Nat.zero_lt_one
        ((Nat.one_le_div_iff q.den_pos).mpr (Nat.le_of_dvd (by positivity) hdvd))
    have hne : ((10 ^ k / q.den : ℕ) : ℚ) ≠ 0 := Nat.cast_ne_zero.mpr hpos.ne'
    have hcancel : (q.den : ℚ) * ((10 ^ k / q.den : ℕ) : ℚ) = 10 ^ k := by
      have hnat : q.den * (10 ^ k / q.den) = 10 ^ k := Nat.mul_div_cancel' hdvd
      have h2 := congrArg (fun n : ℕ => (n : ℚ)) hnat
      push_cast at h2
      linarith [h2]
    have hm2 : (m : ℚ) = (q.num : ℚ) * ((10 ^ k / q.den : ℕ) : ℚ) := by
      rw [hm, Int.cast_mul, Int.cast_natCast]
    rw [hm2, ← hcancel, mul_comm (q.den : ℚ) _, mul_comm ((q.num : ℚ)) _,
      mul_div_mul_left _ _ hne]
    exact Rat.num_div_den q
  rw [parse_brl_str_eq, hnorm, floatOfChars_renderDec, hvalue]

theorem takeWhile_all {p : Char → Bool} {l : List Char} (h : ∀ c ∈ l, p c = true) :
    l.takeWhile p = l := by
  induction l with
  | nil => rfl
  | cons c t ih =>
    rw [List.takeWhile_cons_of_pos (h c (List.mem_cons_self _ _))]
    rw [ih fun x hx => h x (List.mem_cons_of_mem _ hx)]

theorem dropWhile_all {p : Char → Bool} {l : List Char} (h : ∀ c ∈ l, p c = true) :
    l.dropWhile p = [] := by
  induction l with
  | nil => rfl
  | cons c t ih =>
    rw [List.dropWhile_cons_of_pos (h c (List.mem_cons_self _ _))]
    exact ih fun x hx => h x (List.mem_cons_of_mem _ hx)

theorem natFromDigitChars_lt (cs : List Char) (h : ∀ c ∈ cs, isDigitC c = true) :
    natFromDigitChars cs < 10 ^ cs.length := by
  induction cs using List.reverseRecOn with
  | nil => simp [natFromDigitChars]
  | append_singleton l c ih =>
    have hc : isDigitC c = true := h c (List.mem_append_right _ (List.mem_singleton_self _))
    have hl := ih fun x hx => h x (List.mem_append_left _ hx)
    have hcv : c.toNat - 48 < 10 := by
      simp only [isDigitC, Bool.and_eq_true, decide_eq_true_eq] at hc
      omega
    rw [natFromDigitChars_append]
    have h1 : natFromDigitChars [c] < 10 := by
      simp only [natFromDigitChars, List.foldl_cons, List.foldl_nil]
      omega
    simp only [List.length_append, List.length_cons, List.length_nil]
    calc natFromDigitChars [c] + natFromDigitChars l * 10 ^ ([c] : List Char).length
        < 10 + natFromDigitChars l * 10 := by
          simp only [List.length_cons, List.length_nil, pow_one]
          omega
      _ ≤ 10 ^ (l.length + (0 + 1)) := by
          have : natFromDigitChars l + 1 ≤ 10 ^ l.length := hl
          calc 10 + natFromDigitChars l * 10 = (natFromDigitChars l + 1) * 10 := by ring
            _ ≤ 10 ^ l.length * 10 := Nat.mul_le_mul_right 10 hl
            _ = 10 ^ (l.length + (0 + 1)) := by ring

theorem daysInMonth_le_31 (y m : ℕ) : daysInMonth y m ≤ 31 := by
  unfold daysInMonth
  split_ifs <;> norm_num

theorem zeroPad_eq_self {k : ℕ} {cs : List Char} (h : cs.length = k) :
    zeroPad k cs = cs := by
  simp [zeroPad, h]

/-- Parsing the `%Y-%m-%d` rendering of a valid four-digit-year date
recovers the date. -/
theorem parseHyphen_strfDate {y m d : ℕ} (hy1 : 1000 ≤ y) (hy2 : y ≤ 9999)
    (hm1 : 1 ≤ m) (hm2 : m ≤ 12) (hd1 : 1 ≤ d) (hd2 : d ≤ daysInMonth y m) :
    parseHyphen (strfDate y m d).data = some (y, m, d) := by
  have hylen : (natDigitChars y).length = 4 :=
    natDigitChars_length_eq (k := 3) (by norm_num; omega) (by norm_num; omega)
  have hy4 : zeroPad 4 (natDigitChars y) = natDigitChars y := zeroPad_eq_self hylen
  have hmlen : (zeroPad 2 (natDigitChars m)).length = 2 :=
    zeroPad_length_of_le (natDigitChars_length_le (by norm_num; omega) (by norm_num))
  have hdlen : (zeroPad 2 (natDigitChars d)).length = 2 :=
    zeroPad_length_of_le (natDigitChars_length_le
      (by have := daysInMonth_le_31 y m; norm_num; omega) (by norm_num))
  have hyd : ∀ c ∈ natDigitChars y, isDigitC c = true := natDigitChars_all_digits y
  have hmd : ∀ c ∈ zeroPad 2 (natDigitChars m), isDigitC c = true :=
    zeroPad_all_digits _ _ (natDigitChars_all_digits m)
  have hdd : ∀ c ∈ zeroPad 2 (natDigitChars d), isDigitC c = true :=
    zeroPad_all_digits _ _ (natDigitChars_all_digits d)
  have hmval : natFromDigitChars (zeroPad 2 (natDigitChars m)) = m := by
    rw [natFromDigitChars_zeroPad, natFromDigitChars_natDigitChars]
  have hdval : natFromDigitChars (zeroPad 2 (natDigitChars d)) = d := by
    rw [natFromDigitChars_zeroPad, natFromDigitChars_natDigitChars]
  have hdata : (strfDate y m d).data =
      natDigitChars y ++ '-' :: (zeroPad 2 (natDigitChars m) ++
        '-' :: zeroPad 2 (natDigitChars d)) := by
    show zeroPad 4 (natDigitChars y) ++ '-' :: zeroPad 2 (natDigitChars m) ++
      '-' :: zeroPad 2 (natDigitChars d) =
      natDigitChars y ++ '-' :: (zeroPad 2 (natDigitChars m) ++
        '-' :: zeroPad 2 (natDigitChars d))
    rw [hy4]
    simp
  unfold parseHyphen
  rw [hdata, takeWhile_append_all _ _ hyd, dropWhile_append_all _ _ hyd,
    List.takeWhile_cons_of_neg (by decide), List.dropWhile_cons_of_neg (by decide),
    List.append_nil]
  rw [if_pos ⟨hylen, by rw [List.head?_cons]⟩, List.tail_cons]
  unfold parseHyphenMonth
  rw [takeWhile_append_all _ _ hmd, dropWhile_append_all _ _ hmd,
    List.takeWhile_cons_of_neg (by decide), List.dropWhile_cons_of_neg (by decide),
    List.append_nil]
  rw [if_pos (by
    rw [hmval, hmlen]
    exact ⟨Or.inr rfl, hm1, hm2, by rw [List.head?_cons]⟩), List.tail_cons]
  unfold parseHyphenDay
  rw [takeWhile_all hdd, dropWhile_all hdd]
  rw [if_pos (by
    rw [hdval, hdlen]
    exact ⟨Or.inr rfl, hd1, le_trans hd2 (daysInMonth_le_31 y m), rfl⟩)]
  rw [if_pos (by
    rw [natFromDigitChars_natDigitChars, hmval, hdval]
    exact ⟨by omega, hd2⟩)]
  rw [natFromDigitChars_natDigitChars, hmval, hdval]

/-- The `DD/MM/YYYY` rendering of a date, the second input format
accepted by `normalize_date`. -/
def slashDateStr (d m y : ℕ) : String :=
  String.mk (zeroPad 2 (natDigitChars d) ++ '/' :: zeroPad 2 (natDigitChars m) ++
    '/' :: zeroPad 4 (natDigitChars y))

/-- The hyphen format rejects a `DD/MM/YYYY` string (its leading digit
run has length 2, not 4), so `normalize_date` falls through to the slash
format. -/
theorem parseHyphen_slashDateStr {d m y : ℕ} (hd : d ≤ 31) :
    parseHyphen (slashDateStr d m y).data = none := by
  have hdlen : (zeroPad 2 (natDigitChars d)).length = 2 :=
    zeroPad_length_of_le (natDigitChars_length_le (by norm_num; omega) (by norm_num))
  have hdd : ∀ c ∈ zeroPad 2 (natDigitChars d), isDigitC c = true :=
    zeroPad_all_digits _ _ (natDigitChars_all_digits d)
  have hdata : (slashDateStr d m y).data =
      zeroPad 2 (natDigitChars d) ++ '/' :: (zeroPad 2 (natDigitChars m) ++
        '/' :: zeroPad 4 (natDigitChars y)) := by
    show zeroPad 2 (natDigitChars d) ++ '/' :: zeroPad 2 (natDigitChars m) ++
      '/' :: zeroPad 4 (natDigitChars y) = _
    simp
  unfold parseHyphen
  rw [hdata, takeWhile_append_all _ _ hdd]
  rw [if_neg (by
    rw [List.takeWhile_cons_of_neg (by decide), List.append_nil, hdlen]
    intro hc
    exact absurd hc.1 (by norm_num))]

/-- Parsing the `%d/%m/%Y` rendering of a valid four-digit-year date
recovers the date (in day-month-year order). -/
theorem parseSlash_slashDateStr {y m d : ℕ} (hy1 : 1000 ≤ y) (hy2 : y ≤ 9999)
    (hm1 : 1 ≤ m) (hm2 : m ≤ 12) (hd1 : 1 ≤ d) (hd2 : d ≤ daysInMonth y m) :
    parseSlash (slashDateStr d m y).data = some (d, m, y) := by
  have hylen : (natDigitChars y).length = 4 :=
    natDigitChars_length_eq (k := 3) (by norm_num; omega) (by norm_num; omega)
  have hy4 : zeroPad 4 (natDigitChars y) = natDigitChars y := zeroPad_eq_self hylen
  have hmlen : (zeroPad 2 (natDigitChars m)).length = 2 :=
    zeroPad_length_of_le (natDigitChars_length_le (by norm_num; omega) (by norm_num))
  have hdlen : (zeroPad 2 (natDigitChars d)).length = 2 :=
    zeroPad_length_of_le (natDigitChars_length_le
      (by have := daysInMonth_le_31 y m; norm_num; omega) (by norm_num))
  have hyd : ∀ c ∈ natDigitChars y, isDigitC c = true := natDigitChars_all_digits y
  have hmd : ∀ c ∈ zeroPad 2 (natDigitChars m), isDigitC c = true :=
    zeroPad_all_digits _ _ (natDigitChars_all_digits m)
  have hdd : ∀ c ∈ zeroPad 2 (natDigitChars d), isDigitC c = true :=
    zeroPad_all_digits _ _ (natDigitChars_all_digits d)
  have hmval : natFromDigitChars (zeroPad 2 (natDigitChars m)) = m := by
    rw [natFromDigitChars_zeroPad, natFromDigitChars_natDigitChars]
  have hdval : natFromDigitChars (zeroPad 2 (natDigitChars d)) = d := by
    rw [natFromDigitChars_zeroPad, natFromDigitChars_natDigitChars]
  have hdata : (slashDateStr d m y).data =
      zeroPad 2 (natDigitChars d) ++ '/' :: (zeroPad 2 (natDigitChars m) ++
        '/' :: natDigitChars y) := by
    show zeroPad 2 (natDigitChars d) ++ '/' :: zeroPad 2 (natDigitChars m) ++
      '/' :: zeroPad 4 (natDigitChars y) = _
    rw [hy4]
    simp
  unfold parseSlash
  rw [hdata, takeWhile_append_all _ _ hdd, dropWhile_append_all _ _ hdd,
    List.takeWhile_cons_of_neg (by decide), List.dropWhile_cons_of_neg (by decide),
    List.append_nil]
  rw [if_pos (by
    rw [hdval, hdlen]
    exact ⟨Or.inr rfl, hd1, le_trans hd2 (daysInMonth_le_31 y m),
      by rw [List.head?_cons]⟩), List.tail_cons]
  unfold parseSlashMonth
  rw [takeWhile_append_all _ _ hmd, dropWhile_append_all _ _ hmd,
    List.takeWhile_cons_of_neg (by decide), List.dropWhile_cons_of_neg (by decide),
    List.append_nil]
  rw [if_pos (by
    rw [hmval, hmlen]
    exact ⟨Or.inr rfl, hm1, hm2, by rw [List.head?_cons]⟩), List.tail_cons]
  unfold parseSlashYear
  rw [takeWhile_all hyd, dropWhile_all hyd]
  rw [if_pos ⟨hylen, rfl⟩]
  rw [if_pos (by
    rw [natFromDigitChars_natDigitChars, hmval, hdval]
    exact ⟨by omega, hd2⟩)]
  rw [natFromDigitChars_natDigitChars, hmval, hdval]

theorem parseHyphen_valid {cs : List Char} {y m d : ℕ}
    (h : parseHyphen cs = some (y, m, d)) :
    1 ≤ y ∧ y ≤ 9999 ∧ 1 ≤ m ∧ m ≤ 12 ∧ 1 ≤ d ∧ d ≤ daysInMonth y m := by
  unfold parseHyphen at h
  split_ifs at h with h1
  unfold parseHyphenMonth at h
  split_ifs at h with h2
  unfold parseHyphenDay at h
  split_ifs at h with h3 h4
  injection h with h5
  have hy := congrArg (fun p : ℕ × ℕ × ℕ => p.1) h5
  have hmo := congrArg (fun p : ℕ × ℕ × ℕ => p.2.1) h5
  have hd := congrArg (fun p : ℕ × ℕ × ℕ => p.2.2) h5
  simp only at hy hmo hd
  have hylt : natFromDigitChars (cs.takeWhile isDigitC) < 10 ^ 4 := by
    have := natFromDigitChars_lt (cs.takeWhile isDigitC)
      (fun c hc => List.mem_takeWhile_imp hc)
    rw [h1.1] at this
    exact this
  subst hy
  subst hmo
  subst hd
  exact ⟨h4.1, by omega, h2.2.1, h2.2.2.1, h3.2.1, h4.2⟩

theorem parseSlash_valid {cs : List Char} {y m d : ℕ}
    (h : parseSlash cs = some (d, m, y)) :
    1 ≤ y ∧ y ≤ 9999 ∧ 1 ≤ m ∧ m ≤ 12 ∧ 1 ≤ d ∧ d ≤ daysInMonth y m := by
  unfold parseSlash at h
  split_ifs at h with h1
  unfold parseSlashMonth at h
  split_ifs at h with h2
  unfold parseSlashYear at h
  split_ifs at h with h3 h4
  injection h with h5
  have hd := congrArg (fun p : ℕ × ℕ × ℕ => p.1) h5
  have hmo := congrArg (fun p : ℕ × ℕ × ℕ => p.2.1) h5
  have hy := congrArg (fun p : ℕ × ℕ × ℕ => p.2.2) h5
  simp only at hy hmo hd
  have hylt : natFromDigitChars (((cs.dropWhile isDigitC).tail.dropWhile
      isDigitC).tail.takeWhile isDigitC) < 10 ^ 4 := by
    have := natFromDigitChars_lt _
      (fun c hc => List.mem_takeWhile_imp (l := ((cs.dropWhile isDigitC).tail.dropWhile
        isDigitC).tail) hc)
    rw [h3.1] at this
    exact this
  subst hy
  subst hmo
  subst hd
  exact ⟨h4.1, by omega, h2.2.1, h2.2.2.1, h1.2.1, h4.2⟩

theorem strfDate_classes (y m d : ℕ) :
    ∀ c ∈ (strfDate y m d).data, isDigitC c = true ∨ c = '-' := by
  intro c hc
  have hc2 : c ∈ zeroPad 4 (natDigitChars y) ++ '-' :: zeroPad 2 (natDigitChars m) ++
      '-' :: zeroPad 2 (natDigitChars d) := hc
  have hy := zeroPad_all_digits 4 _ (natDigitChars_all_digits y)
  have hm := zeroPad_all_digits 2 _ (natDigitChars_all_digits m)
  have hdd := zeroPad_all_digits 2 _ (natDigitChars_all_digits d)
  simp only [List.mem_append, List.mem_cons] at hc2
  tauto

theorem strfDate_not_space (y m d : ℕ) :
    ∀ c ∈ (strfDate y m d).data, isSpaceC c = false := by
  intro c hc
  rcases strfDate_classes y m d c hc with h | h
  · exact isDigitC_not_space h
  · subst h; decide

theorem slashDateStr_classes (d m y : ℕ) :
    ∀ c ∈ (slashDateStr d m y).data, isDigitC c = true ∨ c = '/' := by
  intro c hc
  have hc2 : c ∈ zeroPad 2 (natDigitChars d) ++ '/' :: zeroPad 2 (natDigitChars m) ++
      '/' :: zeroPad 4 (natDigitChars y) := hc
  have hy := zeroPad_all_digits 4 _ (natDigitChars_all_digits y)
  have hm := zeroPad_all_digits 2 _ (natDigitChars_all_digits m)
  have hdd := zeroPad_all_digits 2 _ (natDigitChars_all_digits d)
  simp only [List.mem_append, List.mem_cons] at hc2
  tauto

theorem strfDate_data_length {y m d : ℕ} (hy1 : 1000 ≤ y) (hy2 : y ≤ 9999)
    (hm2 : m ≤ 12) (hd2 : d ≤ 31) : (strfDate y m d).data.length = 10 := by
  have hylen : (natDigitChars y).length = 4 :=
    natDigitChars_length_eq (k := 3) (by norm_num; omega) (by norm_num; omega)
  have h4 : (zeroPad 4 (natDigitChars y)).length = 4 :=
    zeroPad_length_of_le (le_of_eq hylen)
  have hmlen : (zeroPad 2 (natDigitChars m)).length = 2 :=
    zeroPad_length_of_le (natDigitChars_length_le (by norm_num; omega) (by norm_num))
  have hdlen : (zeroPad 2 (natDigitChars d)).length = 2 :=
    zeroPad_length_of_le (natDigitChars_length_le (by norm_num; omega) (by norm_num))
  show (zeroPad 4 (natDigitChars y) ++ '-' :: zeroPad 2 (natDigitChars m) ++
    '-' :: zeroPad 2 (natDigitChars d)).length = 10
  simp [List.length_append, h4, hmlen, hdlen]

theorem slashDateStr_data_length {y m d : ℕ} (hy1 : 1000 ≤ y) (hy2 : y ≤ 9999)
    (hm2 : m ≤ 12) (hd2 : d ≤ 31) : (slashDateStr d m y).data.length = 10 := by
  have hylen : (natDigitChars y).length = 4 :=
    natDigitChars_length_eq (k := 3) (by norm_num; omega) (by norm_num; omega)
  have h4 : (zeroPad 4 (natDigitChars y)).length = 4 :=
    zeroPad_length_of_le (le_of_eq hylen)
  have hmlen : (zeroPad 2 (natDigitChars m)).length = 2 :=
    zeroPad_length_of_le (natDigitChars_length_le (by norm_num; omega) (by norm_num))
  have hdlen : (zeroPad 2 (natDigitChars d)).length = 2 :=
    zeroPad_length_of_le (natDigitChars_length_le (by norm_num; omega) (by norm_num))
  show (zeroPad 2 (natDigitChars d) ++ '/' :: zeroPad 2 (natDigitChars m) ++
    '/' :: zeroPad 4 (natDigitChars y)).length = 10
  simp [List.length_append, h4, hmlen, hdlen]

theorem string_ne_empty_of_data_length {s : String} {n : ℕ}
    (h : s.data.length = n) (hn : n ≠ 0) : ¬ s = "" := by
  intro he
  subst he
  simp at h
  exact hn h.symm

/-! ## Claim theorems -/

/-- Claim C8: the amount parser is idempotent on the decimal rendering
of its own output: for every input string
`parse_brl_to_float(str(parse_brl_to_float(x))) = parse_brl_to_float(x)`
(stated for all strings, which covers the claim's valid currency strings
of either separator convention; `pyFloatStr` is the plain decimal
rendering CPython's `str` produces for floats in the non-exponent
range). -/
theorem C8_parse_idempotent (x : String) :
    parse_brl_to_float (.str (pyFloatStr (parse_brl_to_float (.str x)))) =
      parse_brl_to_float (.str x) :=
  parse_of_pyFloatStr (parse_brl_den_dvd x)

/-- Claim C3 (amended): `normalize_date` returns a canonical date exactly
when the first at-most-ten characters of the *stripped* input parse as a
valid calendar date in the hyphen form (four-digit year, one-or-two-digit
month and day, tried first) or the slash form (tried second); characters
past the tenth of a ten-character stripped input are ignored; empty or
null input, or both forms failing, give `none`, and the function never
raises.  The claim's requirement that the input be at least ten
characters long is dropped: `strptime` accepts single-digit month and day
fields (see the counterexample). -/
theorem C3_normalize_date_behavior :
    normalize_date Option.none = none
  ∧ normalize_date (some "") = none
  ∧ normalize_date (some "not a date") = none
  ∧ (∀ s t : String, pyStrip s.data = s.data → s.data.length = 10 →
      pyStrip (s.data ++ t.data) = s.data ++ t.data →
      normalize_date (some (s ++ t)) = normalize_date (some s))
  ∧ (∀ y m d : ℕ, 1000 ≤ y → y ≤ 9999 → 1 ≤ m → m ≤ 12 → 1 ≤ d →
      d ≤ daysInMonth y m →
      normalize_date (some (strfDate y m d)) = some (strfDate y m d)
      ∧ normalize_date (some (slashDateStr d m y)) = some (strfDate y m d))
  ∧ (∀ (s : Option String) (r : String), normalize_date s = some r →
      ∃ y m d, 1 ≤ y ∧ y ≤ 9999 ∧ 1 ≤ m ∧ m ≤ 12 ∧ 1 ≤ d ∧
        d ≤ daysInMonth y m ∧ r = strfDate y m d) := by
  refine ⟨rfl, rfl, by decide, ?_, ?_, ?_⟩
  · intro s t h1 h2 h3
    have hs : ¬ s = "" := string_ne_empty_of_data_length h2 (by norm_num)
    have hst : ¬ (s ++ t) = "" := by
      intro he
      have hd : (s ++ t).data = [] := by rw [he]
      rw [String.data_append, List.append_eq_nil] at hd
      exact hs (by
        have h4 : s.data = [] := hd.1
        cases s with
        | mk l => simp only at h4; rw [h4])
    simp only [normalize_date, if_neg hs, if_neg hst]
    rw [String.data_append, h3, h1, ← h2, List.take_left, List.take_length]
  · intro y m d hy1 hy2 hm1 hm2 hd1 hd2
    have hd31 : d ≤ 31 := le_trans hd2 (daysInMonth_le_31 y m)
    constructor
    · have hlen := strfDate_data_length hy1 hy2 hm2 hd31
      have hne : ¬ strfDate y m d = "" := string_ne_empty_of_data_length hlen (by norm_num)
      simp only [normalize_date, if_neg hne]
      rw [pyStrip_eq_self (strfDate_not_space y m d),
        List.take_of_length_le (le_of_eq hlen),
        parseHyphen_strfDate hy1 hy2 hm1 hm2 hd1 hd2]
    · have hlen := slashDateStr_data_length hy1 hy2 hm2 hd31
      have hne : ¬ slashDateStr d m y = "" :=
        string_ne_empty_of_data_length hlen (by norm_num)
      have hnospace : ∀ c ∈ (slashDateStr d m y).data, isSpaceC c = false := by
        intro c hc
        rcases slashDateStr_classes d m y c hc with h | h
        · exact isDigitC_not_space h
        · subst h; decide
      simp only [normalize_date, if_neg hne]
      rw [pyStrip_eq_self hnospace, List.take_of_length_le (le_of_eq hlen),
        parseHyphen_slashDateStr hd31, parseSlash_slashDateStr hy1 hy2 hm1 hm2 hd1 hd2]
  · intro s r h
    cases s with
    | none => exact absurd h (by simp [normalize_date])
    | some str =>
      simp only [normalize_date] at h
      by_cases hse : str = ""
      · rw [if_pos hse] at h
        exact absurd h (by simp)
      · rw [if_neg hse] at h
        cases hh : parseHyphen ((pyStrip str.data).take 10) with
        | some ymd =>
          obtain ⟨y, m, d⟩ := ymd
          simp only [hh, Option.some.injEq] at h
          obtain ⟨v1, v2, v3, v4, v5, v6⟩ := parseHyphen_valid hh
          exact ⟨y, m, d, v1, v2, v3, v4, v5, v6, h.symm⟩
        | none =>
          simp only [hh] at h
          cases hs2 : parseSlash ((pyStrip str.data).take 10) with
          | some dmy =>
            obtain ⟨d, m, y⟩ := dmy
            simp only [hs2, Option.some.injEq] at h
            obtain ⟨v1, v2, v3, v4, v5, v6⟩ := parseSlash_valid hs2
            exact ⟨y, m, d, v1, v2, v3, v4, v5, v6, h.symm⟩
          | none =>
            simp only [hs2] at h
            exact Option.noConfusion h

/-- Claim C3 witness: the amended behavior on concrete inputs — a
ten-character hyphen date with a trailing suffix, the round trips at
2024-03-05, and the validity of a returned value. -/
theorem C3_normalize_date_behavior_witness :
    (pyStrip ("2024-05-01" : String).data = ("2024-05-01" : String).data
      ∧ ("2024-05-01" : String).data.length = 10
      ∧ normalize_date (some ("2024-05-01" ++ "junk")) = normalize_date (some "2024-05-01"))
  ∧ normalize_date (some (strfDate 2024 3 5)) = some (strfDate 2024 3 5)
  ∧ normalize_date (some (slashDateStr 5 3 2024)) = some (strfDate 2024 3 5)
  ∧ (∃ y m d, 1 ≤ y ∧ y ≤ 9999 ∧ 1 ≤ m ∧ m ≤ 12 ∧ 1 ≤ d ∧
      d ≤ daysInMonth y m ∧ ("2024-03-05" : String) = strfDate y m d) := by
  refine ⟨⟨by decide, by decide, ?_⟩, ?_, ?_, ?_⟩
  · exact C3_normalize_date_behavior.2.2.2.1 "2024-05-01" "junk"
      (by decide) (by decide) (by decide)
  · exact (C3_normalize_date_behavior.2.2.2.2.1 2024 3 5 (by decide) (by decide)
      (by decide) (by decide) (by decide) (by decide)).1
  · exact (C3_normalize_date_behavior.2.2.2.2.1 2024 3 5 (by decide) (by decide)
      (by decide) (by decide) (by decide) (by decide)).2
  · exact C3_normalize_date_behavior.2.2.2.2.2 (some "2024-03-05") "2024-03-05"
      (by decide)

/-- Claim C3, counterexample to the claim as stated: the eight-character
input `"2024-1-1"` — shorter than the ten characters the claim requires —
is accepted by `normalize_date`, because the CPython `strptime` regexes
for `%m` and `%d` accept single digits. -/
theorem C3_counterexample :
    normalize_date (some "2024-1-1") = some "2024-01-01"
  ∧ ("2024-1-1" : String).length < 10 :=
  ⟨by decide, by decide⟩

/-- Claim C4: the amount parser is total — `None` and the empty string
give `0.0`, strings containing no digits give `0.0`, any input whose
normalized form fails the float scan gives `0.0` (the fallback, so the
parser never raises), and the mixed-separator strings `"1.234,56"` and
`"R$ 1.234,56"` give `1234.56`. -/
theorem C4_parser_never_fails :
    parse_brl_to_float PyVal.none = 0
  ∧ parse_brl_to_float (.str "") = 0
  ∧ (∀ s : String, (∀ c ∈ s.data, isDigitC c = false) → parse_brl_to_float (.str s) = 0)
  ∧ (∀ s : String, floatScan (brlNormChars s) = none → parse_brl_to_float (.str s) = 0)
  ∧ parse_brl_to_float (.str "1.234,56") = 123456 / 100
  ∧ parse_brl_to_float (.str "R$ 1.234,56") = 123456 / 100 := by
  refine ⟨rfl, rfl, ?_, ?_, ?_, ?_⟩
  · intro s h
    have hs := floatScan_no_digit (brlNormChars_no_digit h)
    simp [parse_brl_to_float, floatOfChars, hs]
  · intro s h
    simp [parse_brl_to_float, floatOfChars, h]
  · have h : floatScan (brlNormChars "1.234,56") = some ⟨false, 1234, 56, 2⟩ := by decide
    simp [parse_brl_to_float, floatOfChars, h, decOfScan]
    norm_num
  · have h : floatScan (brlNormChars "R$ 1.234,56") = some ⟨false, 1234, 56, 2⟩ := by decide
    simp [parse_brl_to_float, floatOfChars, h, decOfScan]
    norm_num

/-- Claim C4 witness: the digit-free string `"abc"` and the scan-failing
string `"1,2,3"` both parse to `0`. -/
theorem C4_parser_never_fails_witness :
    (∀ c ∈ ("abc" : String).data, isDigitC c = false)
  ∧ parse_brl_to_float (.str "abc") = 0
  ∧ floatScan (brlNormChars "1,2,3") = none
  ∧ parse_brl_to_float (.str "1,2,3") = 0 :=
  ⟨by decide, C4_parser_never_fails.2.2.1 "abc" (by decide),
   by decide, C4_parser_never_fails.2.2.2.1 "1,2,3" (by decide)⟩

/-- The worked example of the spec: current date 2024-05-20. -/
def c1Now : Date := ⟨2024, 5, 20⟩

/-- The worked example of the spec: three May-2024 records. -/
def c1Rows : List Rec :=
  [⟨⟨2024, 5, 1⟩, "Food", 10, Option.none⟩,
   ⟨⟨2024, 5, 15⟩, "Food", 5, Option.none⟩,
   ⟨⟨2024, 5, 1⟩, "Rent", 100, Option.none⟩]

/-- Claim C1: for every list of expense records, the aggregation pass
accumulates each record's amount into `monthTotals` keyed by the
`"YYYY-MM"` of its date and into `categoryTotals` keyed by its category;
a record's amount is added to the current-year total exactly when the
record's year equals the current system year, and additionally to the
current-month total exactly when its month also equals the current
system month.  With the current date fixed to 2024-05-20 and the records
(2024-05-01, Food, 10), (2024-05-15, Food, 5), (2024-05-01, Rent, 100),
the result has `monthTotals["2024-05"] = 115` and `categoryTotals`
ordered `[("Rent", 100), ("Food", 15)]`. -/
theorem C1_dashboard_accumulation (now : Date) (rows : List Rec) :
    (∀ k, getTotal (dashboard now rows).totais_mes k =
        sumBy rows (fun r => ymStr r.data == k))
  ∧ (∀ c, getTotal (dashboard now rows).totais_categoria c =
        sumBy rows (fun r => r.categoria == c))
  ∧ (dashboard now rows).total_ano = sumBy rows (fun r => r.data.y == now.y)
  ∧ (dashboard now rows).total_mes =
      sumBy rows (fun r => r.data.y == now.y && r.data.m == now.m)
  ∧ (dashboard c1Now c1Rows).totais_mes = [("2024-05", 115)]
  ∧ (dashboard c1Now c1Rows).totais_categoria = [("Rent", 100), ("Food", 15)] := by
  refine ⟨dashboard_getTotal_mes now rows, dashboard_getTotal_categoria now rows,
    dashboard_total_ano now rows, dashboard_total_mes now rows, ?_, ?_⟩ <;>
  · have hym1 : ymStr ⟨2024, 5, 1⟩ = "2024-05" := by decide
    have hym2 : ymStr ⟨2024, 5, 15⟩ = "2024-05" := by decide
    have hst : pyLower (pyOr Option.none "Em aberto") = "em aberto" := by decide
    simp only [dashboard, c1Now, c1Rows, List.foldl_cons, List.foldl_nil, step, initSt,
      hym1, hym2, hst, dictUpd]
    norm_num [List.insertionSort, List.orderedInsert, rMes, rCat]

/-- Claim C5: for every input record list, the month→total mapping is
produced in (strictly) ascending order of its `"YYYY-MM"` keys and the
category→total mapping in descending order of total amount. -/
theorem C5_output_ordering (now : Date) (rows : List Rec) :
    List.Pairwise (fun a b : String × ℚ => a.1 < b.1) (dashboard now rows).totais_mes
  ∧ List.Pairwise (fun a b : String × ℚ => b.2 ≤ a.2)
      (dashboard now rows).totais_categoria := by
  constructor
  · have hsorted : List.Pairwise rMes (dashboard now rows).totais_mes :=
      List.sorted_insertionSort rMes _
    have hnodup0 : (((rows.foldl (step now) initSt).totais_mes).map Prod.fst).Nodup :=
      foldl_nodup_mes now rows initSt (by simp [initSt])
    have hperm : ((dashboard now rows).totais_mes.map Prod.fst).Perm
        (((rows.foldl (step now) initSt).totais_mes).map Prod.fst) :=
      (List.perm_insertionSort rMes _).map Prod.fst
    have hnodup : ((dashboard now rows).totais_mes.map Prod.fst).Nodup :=
      hperm.nodup_iff.mpr hnodup0
    have hne : List.Pairwise (fun a b : String × ℚ => a.1 ≠ b.1)
        (dashboard now rows).totais_mes := by
      rw [List.Nodup, List.pairwise_map] at hnodup
      exact hnodup
    exact (hsorted.and hne).imp fun h => by
      rcases h with ⟨h1 | ⟨he, _⟩, hne⟩
      · exact h1
      · exact absurd he hne
  · exact List.sorted_insertionSort rCat _

/-- Claim C6 (amended): a record in the current month is bucketed into
the paid sub-total and count exactly when its status equals the code's
literal `"Pago"` under case-insensitive comparison (not the spec's
`"Paid"`), and into the pending buckets otherwise, with an absent or
empty status defaulting to `"Em aberto"` and hence pending; records
outside the current month contribute to neither bucket (the buckets sum
only over records whose year and month match the current date). -/
theorem C6_status_buckets (now : Date) (rows : List Rec) :
    (dashboard now rows).total_mes_pago =
      sumBy rows (fun r => curMonthB now r && isPagoB r)
  ∧ (dashboard now rows).total_mes_aberto =
      sumBy rows (fun r => curMonthB now r && !isPagoB r)
  ∧ (dashboard now rows).qtd_mes_pago =
      (rows.filter fun r => curMonthB now r && isPagoB r).length
  ∧ (dashboard now rows).qtd_mes_aberto =
      (rows.filter fun r => curMonthB now r && !isPagoB r).length
  ∧ (∀ r : Rec, isPagoB r = (pyLower (pyOr r.status "Em aberto") == "pago"))
  ∧ (∀ dt c v, isPagoB ⟨dt, c, v, Option.none⟩ = false)
  ∧ (∀ dt c v, isPagoB ⟨dt, c, v, some "PAGO"⟩ = true) :=
  ⟨dashboard_pago now rows, dashboard_aberto now rows, dashboard_qtd_pago now rows,
   dashboard_qtd_aberto now rows, fun _ => rfl, fun _ _ _ => rfl, fun _ _ _ => rfl⟩

/-- Claim C6, counterexample to the claim as stated: a current-month
record whose status is literally `"Paid"` — which the claim says is
bucketed as paid under case-insensitive comparison against `"Paid"` — is
bucketed as pending by the code, which compares against `"pago"`. -/
theorem C6_counterexample :
    (dashboard ⟨2024, 5, 20⟩ [⟨⟨2024, 5, 1⟩, "Food", 10, some "Paid"⟩]).total_mes_pago = 0
  ∧ (dashboard ⟨2024, 5, 20⟩ [⟨⟨2024, 5, 1⟩, "Food", 10, some "Paid"⟩]).total_mes_aberto = 10
  ∧ (dashboard ⟨2024, 5, 20⟩ [⟨⟨2024, 5, 1⟩, "Food", 10, some "Paid"⟩]).qtd_mes_pago = 0
  ∧ (dashboard ⟨2024, 5, 20⟩ [⟨⟨2024, 5, 1⟩, "Food", 10, some "Paid"⟩]).qtd_mes_aberto = 1 := by
  have hpago : isPagoB ⟨⟨2024, 5, 1⟩, "Food", 10, some "Paid"⟩ = false := by decide
  have hcur : curMonthB ⟨2024, 5, 20⟩ ⟨⟨2024, 5, 1⟩, "Food", 10, some "Paid"⟩ = true := by
    decide
  refine ⟨?_, ?_, ?_, ?_⟩
  · rw [dashboard_pago]; simp [sumBy, List.filter_cons, hpago]
  · rw [dashboard_aberto]; simp [sumBy, List.filter_cons, hpago, hcur]
  · rw [dashboard_qtd_pago]; simp [List.filter_cons, hpago]
  · rw [dashboard_qtd_aberto]; simp [List.filter_cons, hpago, hcur]

/-- Claim C10: the paid and pending current-month buckets partition the
current-month aggregate: paid + pending sub-totals equal the
current-month total, and paid + pending counts equal the number of
records whose year and month equal the current system year and month. -/
theorem C10_buckets_partition (now : Date) (rows : List Rec) :
    (dashboard now rows).total_mes_pago + (dashboard now rows).total_mes_aberto =
      (dashboard now rows).total_mes
  ∧ (dashboard now rows).qtd_mes_pago + (dashboard now rows).qtd_mes_aberto =
      (rows.filter fun r => r.data.y == now.y && r.data.m == now.m).length := by
  constructor
  · rw [dashboard_pago, dashboard_aberto, dashboard_total_mes]
    exact sumBy_split rows (curMonthB now) isPagoB
  · rw [dashboard_qtd_pago, dashboard_qtd_aberto]
    exact lengthBy_split rows (curMonthB now) isPagoB

/-- Claim C2: for every canonical start date (a string accepted by the
`%Y-%m-%d` parse, which guarantees `1 ≤ m ≤ 12`), the expansion returns
exactly one date per calendar month from the start month through
December of the start year (`13 - m` entries), each with the start's
year, the target month, and day `min(start.day, last valid day of that
month)`.  In particular a start of 2024-12-10 yields exactly
`[2024-12-10]`, and a start of 2024-01-31 yields 12 dates including
2024-02-29. -/
theorem C2_monthly_expansion (s : String) (y m d : ℕ)
    (h : parseHyphen s.data = some (y, m, d)) :
    (monthly_until_year_end s).length = 13 - m
  ∧ (∀ i (hi : i < (monthly_until_year_end s).length),
      (monthly_until_year_end s).get ⟨i, hi⟩ =
        ⟨y, m + i, min d (daysInMonth y (m + i))⟩)
  ∧ monthly_until_year_end "2024-12-10" = [⟨2024, 12, 10⟩]
  ∧ (monthly_until_year_end "2024-01-31").length = 12
  ∧ (⟨2024, 2, 29⟩ : Date) ∈ monthly_until_year_end "2024-01-31" := by
  have hs : ¬ s = "" := by
    intro he
    rw [he, (by decide : parseHyphen ("" : String).data = Option.none)] at h
    exact Option.noConfusion h
  have hm : monthly_until_year_end s =
      (List.range' m (13 - m)).map fun mm => ⟨y, mm, min d (daysInMonth y mm)⟩ := by
    rw [monthly_until_year_end, if_neg hs, h]
  refine ⟨?_, ?_, by decide, by decide, by decide⟩
  · rw [hm]; simp
  · intro i hi
    have hi' : i < ((List.range' m (13 - m)).map
        fun mm => (⟨y, mm, min d (daysInMonth y mm)⟩ : Date)).length := by
      rw [← hm]; exact hi
    rw [List.get_eq_getElem, List.getElem_of_eq hm hi, List.getElem_map]
    simp only [List.length_map, List.length_range'] at hi'
    rw [List.getElem_range'_1 i (by simpa using hi')]

/-- Claim C2 witness: a July start satisfies the parse hypothesis and
yields `13 - 7 = 6` dates. -/
theorem C2_monthly_expansion_witness :
    parseHyphen ("2024-07-10" : String).data = some (2024, 7, 10)
  ∧ (monthly_until_year_end "2024-07-10").length = 13 - 7 :=
  ⟨by decide, (C2_monthly_expansion "2024-07-10" 2024 7 10 (by decide)).1⟩

/-- Claim C7 (amended): `get_categorias` returns the stored category
list sorted ascending by name when it is nonempty; when the stored list
is empty it returns the default triple `["Fixo", "Lazer", "Itens Casa"]`
regardless of the expense records (it never derives categories from the
expenses); the result is never empty. -/
theorem C7_resolve_categories (st : Store) :
    get_categorias st = (if st.categorias = [] then ["Fixo", "Lazer", "Itens Casa"]
      else st.categorias.insertionSort (· ≤ ·))
  ∧ (get_categorias st).Perm (if st.categorias = [] then ["Fixo", "Lazer", "Itens Casa"]
      else st.categorias)
  ∧ List.Pairwise (· ≤ ·) (st.categorias.insertionSort (· ≤ ·))
  ∧ get_categorias st ≠ [] := by
  have hiff : st.categorias.insertionSort (· ≤ ·) = [] ↔ st.categorias = [] := by
    constructor
    · intro h
      have := (List.perm_insertionSort (· ≤ ·) st.categorias).length_eq
      rw [h] at this
      exact List.length_eq_zero.mp this.symm
    · intro h; rw [h]; rfl
  have hmain : get_categorias st = (if st.categorias = [] then ["Fixo", "Lazer", "Itens Casa"]
      else st.categorias.insertionSort (· ≤ ·)) := by
    rw [get_categorias]
    by_cases h : st.categorias = []
    · rw [if_pos (hiff.mpr h), if_pos h]
    · rw [if_neg (fun hc => h (hiff.mp hc)), if_neg h]
  refine ⟨hmain, ?_, List.sorted_insertionSort _ _, ?_⟩
  · rw [hmain]
    by_cases h : st.categorias = []
    · rw [if_pos h, if_pos h]
    · rw [if_neg h, if_neg h]
      exact List.perm_insertionSort _ _
  · rw [hmain]
    by_cases h : st.categorias = []
    · rw [if_pos h]; decide
    · rw [if_neg h]
      intro hc
      exact h (hiff.mp hc)

/-- Claim C7, counterexample to the claim as stated: a store with no
explicit category list but one expense categorized `"Food"` — for which
the claim requires the derived list `["Food"]` — gets the default triple
from the code, which never looks at the expenses. -/
theorem C7_counterexample :
    get_categorias ⟨[], [⟨⟨2024, 5, 1⟩, "Food", 10, Option.none⟩]⟩ =
      ["Fixo", "Lazer", "Itens Casa"]
  ∧ (["Fixo", "Lazer", "Itens Casa"] : List String) ≠ ["Food"] :=
  ⟨rfl, by decide⟩

/-- Claim C9 (amended): an add-flow request whose date or category is
absent (or empty), or whose date fails normalization, is rejected with
the user informed and the store left exactly unchanged — no expense
record and no category is persisted.  (An absent amount does not reject:
it is coerced to `0.0` and the write proceeds, see the counterexample.) -/
theorem C9_addflow_rejects (f : Form) (st : Store) :
    ((pyFalsy f.data || pyFalsy f.categoria) = true →
      adicionar f st = (st, .missingFields))
  ∧ ((pyFalsy f.data || pyFalsy f.categoria) = false → normalize_date f.data = none →
      adicionar f st = (st, .invalidDate)) := by
  constructor
  · intro h
    rw [adicionar, if_pos h]
  · intro h hn
    rw [adicionar, if_neg (by rw [h]; exact Bool.false_ne_true), hn]

/-- Claim C9 witness: both reject paths fire on concrete inputs — a
request with no date, and a request with an unparsable date. -/
theorem C9_addflow_rejects_witness :
    (pyFalsy (Option.none : Option String) ||
        pyFalsy (some "Food")) = true
  ∧ adicionar ⟨Option.none, some "Food", Option.none, some "10", Option.none⟩ ⟨[], []⟩ =
      (⟨[], []⟩, .missingFields)
  ∧ (pyFalsy (some "not a date") || pyFalsy (some "Food")) = false
  ∧ normalize_date (some "not a date") = none
  ∧ adicionar ⟨some "not a date", some "Food", Option.none, some "10", Option.none⟩ ⟨[], []⟩ =
      (⟨[], []⟩, .invalidDate) :=
  ⟨by decide,
   (C9_addflow_rejects ⟨Option.none, some "Food", Option.none, some "10", Option.none⟩
      ⟨[], []⟩).1 (by decide),
   by decide, by decide,
   (C9_addflow_rejects ⟨some "not a date", some "Food", Option.none, some "10", Option.none⟩
      ⟨[], []⟩).2 (by decide) (by decide)⟩

/-- Claim C9, counterexample to the claim as stated: a request with date
and category present but the amount absent — which the claim says must
be rejected with nothing persisted — is accepted by the code: the amount
is coerced to `0.0`, the category is created and the record is stored. -/
theorem C9_counterexample :
    adicionar ⟨some "2024-05-01", some "Food", Option.none, Option.none, Option.none⟩
        ⟨[], []⟩ =
      (⟨["Food"], [⟨⟨2024, 5, 1⟩, "Food", 0, some "Em aberto"⟩]⟩, .added false) := by
  rfl

end App
